import Mathlib

/-!
Verification development for the `opening_hours_osm` library.

This file gives a shallow embedding, in Lean 4, of the parts of the Python
source that the specification claims C1..C10 are about:

* `model/util.py`    — `Bitfield`, `DateTimeRange`
* `model/time.py`    — `ExtendedTime`, `VariableTime`, `TimeSpan`, `TimeSelector`
* `model/day.py`     — the day selectors and their `filter` / `next_change_hint`
* `model/enums.py`, `model/__init__.py` — rule kinds, operators, expressions
* `schedule.py`      — `TimeRange`, `Schedule`, `ScheduleIterator`
* `opening_hours.py` — `OpeningHours._next_change_hint`, `TimeDomainIterator`,
  `iter_range_naive`
* `util.py`          — date helpers, `ranges_union`, `range_intersection`

Conventions of the embedding:

* A Python `datetime.date` is represented by its proleptic-Gregorian ordinal
  (`date.toordinal()`, an `Int`; `0001-01-01` is ordinal `1`).  The conversion
  functions `ymd2ord` / `ord2ymd` are transcribed from CPython's
  `datetime._ymd2ord` / `datetime._ord2ymd`, which define the semantics of the
  `datetime.date` objects the source manipulates.  Python's floor division on a
  positive divisor agrees with Lean's `Int` division, which we verified is
  euclidean; `int(x / y)` (truncating float division) is `Int.tdiv`.
* A Python `datetime.datetime` is represented by total minutes,
  `ordinal * 1440 + minute_of_day` (the engine only ever works at minute
  resolution).
* Code that raises an exception is `Option`-valued (`none` = the call raises);
  `assert` statements of the source are not modelled as crashes, instead the
  theorems prove (or hypothesise) the asserted facts — each such place is
  marked in a comment.
* `DATE_ZERO` is imported by the source from `opening_hours_osm.util` but the
  constant itself is absent from the files under `src/`; per the spec it is
  the sentinel date `0001-01-01` (ordinal 1), and is modelled from the spec.
-/

namespace Osm

/-! ## Enums (`model/enums.py`, `model/__init__.py`) -/

inductive RuleKind where
  | OPEN
  | CLOSED
  | UNKNOWN
deriving DecidableEq, Repr

inductive RuleOperator where
  | NORMAL
  | ADDITIONAL
  | FALLBACK
deriving DecidableEq, Repr

inductive HolidayKind where
  | PH
  | SH
deriving DecidableEq, Repr

inductive TimeEvent where
  | DAWN
  | SUNRISE
  | SUNSET
  | DUSK
deriving DecidableEq, Repr

/-- `Weekday` is an `IntEnum` `Mo=0 .. Su=6` in the source; we use `Int`. -/
abbrev Weekday := Int

def Weekday.Mo : Weekday := 0
def Weekday.Tu : Weekday := 1
def Weekday.We : Weekday := 2
def Weekday.Th : Weekday := 3
def Weekday.Fr : Weekday := 4
def Weekday.Sa : Weekday := 5
def Weekday.Su : Weekday := 6

/-- `Month` is an `IntEnum` `Jan=1 .. Dec=12` in the source; we use `Int`. -/
abbrev Month := Int

/-- `Month.next` from `model/day.py`. -/
def monthNext (m : Month) : Month :=
  if m + 1 > 12 then 1 else m + 1

/-! ## Calendar (CPython `datetime` internals used through `datetime.date`)

Transcribed from CPython `Lib/datetime.py`: `_is_leap`, `_days_in_month`,
`_days_before_month`, `_days_before_year`, `_ymd2ord`, `_ord2ymd`. -/

def is_leap (year : Int) : Bool :=
  year % 4 = 0 ∧ (year % 100 ≠ 0 ∨ year % 400 = 0)

/-- `_DAYS_IN_MONTH[m]` (non-leap). -/
def DAYS_IN_MONTH (m : Int) : Int :=
  if m = 1 then 31 else if m = 2 then 28 else if m = 3 then 31 else if m = 4 then 30
  else if m = 5 then 31 else if m = 6 then 30 else if m = 7 then 31 else if m = 8 then 31
  else if m = 9 then 30 else if m = 10 then 31 else if m = 11 then 30 else 31

/-- `_DAYS_BEFORE_MONTH[m]` (non-leap). -/
def DAYS_BEFORE_MONTH (m : Int) : Int :=
  if m = 1 then 0 else if m = 2 then 31 else if m = 3 then 59 else if m = 4 then 90
  else if m = 5 then 120 else if m = 6 then 151 else if m = 7 then 181 else if m = 8 then 212
  else if m = 9 then 243 else if m = 10 then 273 else if m = 11 then 304 else 334

/-- `_days_in_month(year, month)`; also `calendar.monthrange(year, month)[1]`. -/
def days_in_month (year month : Int) : Int :=
  if month = 2 ∧ is_leap year then 29 else DAYS_IN_MONTH month

def days_before_year (year : Int) : Int :=
  let y := year - 1
  y * 365 + y / 4 - y / 100 + y / 400

def days_before_month (year month : Int) : Int :=
  DAYS_BEFORE_MONTH month + (if month > 2 ∧ is_leap year then 1 else 0)

/-- `datetime.date(y, m, d).toordinal()`. -/
def ymd2ord (year month day : Int) : Int :=
  days_before_year year + days_before_month year month + day

structure Ymd where
  year : Int
  month : Int
  day : Int
deriving DecidableEq, Repr

/-- Month/day resolution step of `_ord2ymd`: `n` is the day of the year
(0-based), `leap` whether the year is leap.  Returns `(month, day)`. -/
def ord2ymdAux (n : Int) (leap : Bool) : Int × Int :=
  let month := (n + 50) / 32
  let preceding := DAYS_BEFORE_MONTH month + (if 2 < month ∧ leap then 1 else 0)
  if n < preceding then
    let month := month - 1
    let preceding := preceding - (DAYS_IN_MONTH month + (if month = 2 ∧ leap then 1 else 0))
    (month, n - preceding + 1)
  else
    (month, n - preceding + 1)

/-- CPython `_ord2ymd`: ordinal → (year, month, day). -/
def ord2ymd (nn : Int) : Ymd :=
  let n := nn - 1
  let n400 := n / 146097
  let n := n % 146097
  let year := n400 * 400 + 1
  let n100 := n / 36524
  let n := n % 36524
  let n4 := n / 1461
  let n := n % 1461
  let n1 := n / 365
  let n := n % 365
  let year := year + n100 * 100 + n4 * 4 + n1
  if n1 = 4 ∨ n100 = 4 then
    ⟨year - 1, 12, 31⟩
  else
    let leapyear := n1 = 3 ∧ (n4 ≠ 24 ∨ n100 = 3)
    let (month, day) := ord2ymdAux n leapyear
    ⟨year, month, day⟩

/-- `datetime.date.weekday()`: Monday = 0. -/
def weekdayOfOrd (ord : Int) : Int :=
  (ord + 6) % 7

/-- Python `int(x / y)`: float division truncated towards zero. -/
def pyIntDiv (x y : Int) : Int := Int.tdiv x y

/-! ## Date constants and helpers (`util.py`) -/

/-- Ordinal of `datetime.date.max = 9999-12-31` (beyond it date arithmetic
raises `OverflowError`). -/
def maxOrdinal : Int := ymd2ord 9999 12 31

def DATE_START_ord : Int := ymd2ord 1900 1 1

def DATE_END_ord : Int := ymd2ord 9999 1 1

/-- Modelled from the spec: `DATE_ZERO` is imported from
`opening_hours_osm.util` but that file, as present under `src/`, does not
define it; the spec fixes it as the sentinel `0001-01-01` (ordinal 1). -/
def DATE_ZERO_ord : Int := 1

/-- `next_day_opt` (`util.py`): `day + timedelta(days=1)`, `None` on overflow. -/
def next_day_opt (day : Int) : Option Int :=
  if day + 1 > maxOrdinal then none else some (day + 1)

/-- `next_day` (`util.py`): overflow falls back to `DATE_END`. -/
def next_day (day : Int) : Int :=
  if day + 1 > maxOrdinal then DATE_END_ord else day + 1

/-- `prev_day_opt` (`util.py`). -/
def prev_day_opt (day : Int) : Option Int :=
  if day - 1 < 1 then none else some (day - 1)

/-- `create_date_opt` (`util.py`): `datetime.date(y, m, d)` or `None` if the
constructor raises `ValueError`. -/
def create_date_opt (y m d : Int) : Option Int :=
  if 1 ≤ y ∧ y ≤ 9999 ∧ 1 ≤ m ∧ m ≤ 12 ∧ 1 ≤ d ∧ d ≤ days_in_month y m then
    some (ymd2ord y m d)
  else
    none

/-- `wrapping_contains` (`util.py`). -/
def wrapping_contains (start «end» val : Int) : Bool :=
  if start ≤ «end» then
    val ≥ start ∧ val ≤ «end»
  else
    start ≤ val ∨ val ≤ «end»

/-! ## `Bitfield` (`model/util.py`) -/

structure Bitfield where
  v : Nat
  len : Nat
deriving DecidableEq, Repr

/-- `Bitfield(len=5)` constructor (the `len < 1` check never fails for the
source's uses; we only model `len ≥ 1` values). -/
def Bitfield.mkEmpty (len : Nat := 5) : Bitfield := ⟨0, len⟩

/-- `Bitfield.set`: note the `else` branch is `self.v ^= 1 << i` (xor), not a
bit clear. -/
def Bitfield.set (b : Bitfield) (i : Nat) (val : Bool) : Bitfield :=
  if val then ⟨b.v ||| (1 <<< i), b.len⟩ else ⟨b.v ^^^ (1 <<< i), b.len⟩

/-- `Bitfield.get`: `bool(self.v & (1 << i))`. -/
def Bitfield.get (b : Bitfield) (i : Nat) : Bool :=
  b.v &&& (1 <<< i) ≠ 0

/-- `Bitfield.contains`: `val in bf`. -/
def Bitfield.containsVal (b : Bitfield) (val : Bool) : Bool :=
  if val then b.v ≠ 0 else b.v ≠ (1 <<< b.len) - 1

/-- `Bitfield.set_all`. -/
def Bitfield.set_all (b : Bitfield) (val : Bool) : Bitfield :=
  if val then ⟨(1 <<< b.len) - 1, b.len⟩ else ⟨0, b.len⟩

/-- `Bitfield.set_positions`. -/
def Bitfield.set_positions (b : Bitfield) : List Nat :=
  (List.range b.len).filter fun i => b.get i

/-! ## `ExtendedTime` (`model/time.py`) -/

structure ExtendedTime where
  hour : Int
  minute : Int
deriving DecidableEq, Repr

namespace ExtendedTime

/-- `ExtendedTime.__check` succeeds (the constructor does not raise). -/
def check (hour minute : Int) : Bool :=
  ¬(hour > 48 ∨ hour < 0) ∧ ¬(minute > 59 ∨ minute < 0 ∨ (hour = 48 ∧ minute > 0))

/-- `ExtendedTime.__is_out_of_range`. -/
def is_out_of_range (hour minute : Int) : Bool :=
  hour > 48 ∨ hour < 0 ∨ minute > 59 ∨ minute < 0 ∨ (hour = 48 ∧ minute > 0)

/-- `ExtendedTime.add_minutes_opt`.  Note the source checks
`hour, minute + minutes` without carrying minutes into hours. -/
def add_minutes_opt (t : ExtendedTime) (minutes : Int) : Option ExtendedTime :=
  if is_out_of_range t.hour (t.minute + minutes) then none
  else some ⟨t.hour, t.minute + minutes⟩

/-- `ExtendedTime.add_hours_opt`. -/
def add_hours_opt (t : ExtendedTime) (hours : Int) : Option ExtendedTime :=
  if is_out_of_range (t.hour + hours) t.minute then none
  else some ⟨t.hour + hours, t.minute⟩

/-- `ExtendedTime.add_hours` (the constructor raises when out of range; the
source only calls it in-range — modelled as the raw construction). -/
def add_hours (t : ExtendedTime) (hours : Int) : ExtendedTime :=
  ⟨t.hour + hours, t.minute⟩

/-- `ExtendedTime.mins_from_midnight`. -/
def mins_from_midnight (t : ExtendedTime) : Int :=
  t.minute + 60 * t.hour

/-- `ExtendedTime.from_mins_from_midnight` (Python `int(mins / 60)` truncates;
every source call passes a non-negative argument). -/
def from_mins_from_midnight (mins : Int) : ExtendedTime :=
  ⟨pyIntDiv mins 60, mins % 60⟩

/-- Comparison operators compare `mins_from_midnight`. -/
def lt (a b : ExtendedTime) : Bool := a.mins_from_midnight < b.mins_from_midnight

def le (a b : ExtendedTime) : Bool := a.mins_from_midnight ≤ b.mins_from_midnight

end ExtendedTime

def MIDNIGHT_00 : ExtendedTime := ⟨0, 0⟩
def MIDNIGHT_24 : ExtendedTime := ⟨24, 0⟩
def MIDNIGHT_48 : ExtendedTime := ⟨48, 0⟩

/-- Python `max(a, b)` on `ExtendedTime` (first argument wins ties). -/
def etMax (a b : ExtendedTime) : ExtendedTime :=
  if ExtendedTime.le b a then a else b

/-- Python `min(a, b)` on `ExtendedTime` (first argument wins ties). -/
def etMin (a b : ExtendedTime) : ExtendedTime :=
  if ExtendedTime.le a b then a else b

/-! ## `Context` (`context.py`)

`Context` bundles the two abstract providers (`AbstractLocale`,
`AbstractHolidays`) plus the approximation budget.  Only the methods the
engine calls are modelled; the approximation bound is in minutes. -/

structure Context where
  locale_event_time : Int → TimeEvent → Int × Int
  holidays_is_holiday : Int → HolidayKind → Bool
  holidays_first_holiday_after : Int → HolidayKind → Option Int
  approx_bound_interval_size : Option Int

/-- `AbstractLocale.event_time` fallback constants (hour, minute). -/
def defaultEventTime (_date : Int) (event : TimeEvent) : Int × Int :=
  match event with
  | .DAWN => (6, 0)
  | .SUNRISE => (7, 0)
  | .SUNSET => (19, 0)
  | .DUSK => (20, 0)

/-- `Context()` with `NoLocale` and an empty `CalendarHolidays`. -/
def defaultContext : Context :=
  ⟨defaultEventTime, fun _ _ => false, fun _ _ => none, none⟩

/-- A `Context` whose holidays provider is a `CalendarHolidays` loaded with the
(sorted) list `ph` of `PH` dates: `is_holiday` is set membership and
`first_holiday_after` is `lst[bisect.bisect(lst, d)]` (the first date
strictly after `d`). -/
def calendarHolidaysContext (ph : List Int) : Context :=
  ⟨defaultEventTime,
   fun d k => if k = HolidayKind.PH then ph.contains d else false,
   fun d k => if k = HolidayKind.PH then ph.find? (fun x => d < x) else none,
   none⟩

/-! ## Time model (`model/time.py`) -/

structure Duration where
  hours : Int
  minutes : Int
deriving DecidableEq, Repr

/-- The `Duration` constructor normalises minutes into hours. -/
def mkDuration (hours minutes : Int) : Duration :=
  ⟨hours + pyIntDiv minutes 60, minutes % 60⟩

structure VariableTime where
  event : TimeEvent
  offset : Int
deriving DecidableEq, Repr

/-- `VariableTime.as_naive`: the event time plus the offset,
`MIDNIGHT_00` when `add_minutes_opt` yields `None`. -/
def VariableTime.as_naive (v : VariableTime) (date : Int) (ctx : Context) : ExtendedTime :=
  let t := ctx.locale_event_time date v.event
  ((ExtendedTime.mk t.1 t.2).add_minutes_opt v.offset).getD MIDNIGHT_00

/-- `TimeUnion = Union[ExtendedTime, VariableTime]`. -/
inductive TimeUnion where
  | fixed (t : ExtendedTime)
  | variableT (v : VariableTime)
deriving DecidableEq, Repr

def TimeUnion.as_naive : TimeUnion → Int → Context → ExtendedTime
  | .fixed t, _, _ => t
  | .variableT v, date, ctx => v.as_naive date ctx

structure TimeSpan where
  start : TimeUnion
  «end» : TimeUnion
  open_end : Bool := false
  repeats : Option Duration := none
deriving DecidableEq, Repr

/-- `TimeSpan.is_immutable_full_day`. -/
def TimeSpan.is_immutable_full_day (s : TimeSpan) : Bool :=
  s.start = TimeUnion.fixed MIDNIGHT_00 ∧ s.«end» = TimeUnion.fixed MIDNIGHT_24 ∧
    ¬s.open_end ∧ s.repeats = none

/-- `TimeSpan.as_naive`: resolve both ends; when `start >= end` the end is
lifted by 24h.  `none` models the two `assert`s raising (overflow during the
lift, or a lifted end still below the start). -/
def TimeSpan.as_naive (s : TimeSpan) (date : Int) (ctx : Context) :
    Option (ExtendedTime × ExtendedTime) :=
  let start := s.start.as_naive date ctx
  let e := s.«end».as_naive date ctx
  let lifted : Option ExtendedTime :=
    if ExtendedTime.le e start then e.add_hours_opt 24 else some e
  match lifted with
  | none => none
  | some e2 => if ExtendedTime.le start e2 then some (start, e2) else none

structure TimeSelector where
  time : List TimeSpan
deriving DecidableEq, Repr

/-- The `TimeSelector` constructor: an empty list defaults to
`[TimeSpan(MIDNIGHT_00, MIDNIGHT_24)]`. -/
def mkTimeSelector (time : List TimeSpan) : TimeSelector :=
  if time.isEmpty then
    ⟨[⟨TimeUnion.fixed MIDNIGHT_00, TimeUnion.fixed MIDNIGHT_24, false, none⟩]⟩
  else ⟨time⟩

instance : Inhabited TimeSpan :=
  ⟨⟨TimeUnion.fixed MIDNIGHT_00, TimeUnion.fixed MIDNIGHT_24, false, none⟩⟩

/-- `TimeSelector.is_00_24`. -/
def TimeSelector.is_00_24 (ts : TimeSelector) : Bool :=
  ts.time.length = 1 ∧
    ts.time.headI = ⟨TimeUnion.fixed MIDNIGHT_00, TimeUnion.fixed MIDNIGHT_24, false, none⟩

/-- `TimeSelector.is_immutable_full_day`. -/
def TimeSelector.is_immutable_full_day (ts : TimeSelector) : Bool :=
  ts.time.all (·.is_immutable_full_day)

/-- `range_intersection` (`util.py`). -/
def range_intersection (r1 r2 : ExtendedTime × ExtendedTime) :
    Option (ExtendedTime × ExtendedTime) :=
  let lo := etMax r1.1 r2.1
  let hi := etMin r1.2 r2.2
  if ExtendedTime.lt lo hi then some (lo, hi) else none

/-- Python's stable `list.sort(key=...)` on ranges, keyed by the start's
minutes: stable insertion sort. -/
def sortRangesInsert (x : ExtendedTime × ExtendedTime) :
    List (ExtendedTime × ExtendedTime) → List (ExtendedTime × ExtendedTime)
  | [] => [x]
  | y :: ys =>
    if ExtendedTime.le x.1 y.1 then x :: y :: ys else y :: sortRangesInsert x ys

def sortRangesByStart : List (ExtendedTime × ExtendedTime) →
    List (ExtendedTime × ExtendedTime)
  | [] => []
  | x :: xs => sortRangesInsert x (sortRangesByStart xs)

/-- Merge loop of `ranges_union` (`util.py`). -/
def ranges_union_go (current : ExtendedTime × ExtendedTime) :
    List (ExtendedTime × ExtendedTime) → List (ExtendedTime × ExtendedTime)
  | [] => [current]
  | item :: rest =>
    if ExtendedTime.le item.1 current.2 then
      if ExtendedTime.lt current.2 item.2 then ranges_union_go (current.1, item.2) rest
      else ranges_union_go current rest
    else current :: ranges_union_go item rest

/-- `ranges_union` (`util.py`): sort by range start, then coalesce
overlapping or touching ranges. -/
def ranges_union (ranges : List (ExtendedTime × ExtendedTime)) :
    List (ExtendedTime × ExtendedTime) :=
  match sortRangesByStart ranges with
  | [] => []
  | c :: rest => ranges_union_go c rest

/-- The resolved spans of a selector on a date (`TimeSelector.as_naive`
materialised as a list; `none` when a span resolution raises). -/
def TimeSelector.as_naive_list (ts : TimeSelector) (date : Int) (ctx : Context) :
    Option (List (ExtendedTime × ExtendedTime)) :=
  ts.time.mapM (·.as_naive date ctx)

/-- `TimeSelector.intervals_at`: union of the spans' intersections with
`[00:00, 24:00]`. -/
def TimeSelector.intervals_at (ts : TimeSelector) (date : Int) (ctx : Context) :
    Option (List (ExtendedTime × ExtendedTime)) :=
  (ts.as_naive_list date ctx).map fun rs =>
    ranges_union (rs.filterMap (range_intersection · (MIDNIGHT_00, MIDNIGHT_24)))

/-- `TimeSelector.intervals_at_next_day`: union of the spans' intersections
with `[24:00, 48:00]`, shifted back by 24h. -/
def TimeSelector.intervals_at_next_day (ts : TimeSelector) (date : Int) (ctx : Context) :
    Option (List (ExtendedTime × ExtendedTime)) :=
  (ts.as_naive_list date ctx).map fun rs =>
    ranges_union ((rs.filterMap (range_intersection · (MIDNIGHT_24, MIDNIGHT_48))).map
      fun x => (x.1.add_hours (-24), x.2.add_hours (-24)))

/-! ## Interval-bounds helpers (`model/day.py`, top-level functions)

The source works with (finite, after year projection) iterators wrapped in
`Peekable`; we model them as lists. -/

/-- `ensure_increasing_iter`: drop elements not strictly above the last kept
one. -/
def ensure_increasing_go (cur : Int) : List Int → List Int
  | [] => []
  | v :: vs => if v > cur then v :: ensure_increasing_go v vs else ensure_increasing_go cur vs

def ensure_increasing : List Int → List Int
  | [] => []
  | x :: xs => x :: ensure_increasing_go x xs

/-- Main loop of `intervals_from_bounds`; the `Peekable` drop-loop
(`bend.next_if(end < start)`) becomes a `dropWhile`. -/
def intervals_from_bounds_go : List Int → List Int → List (Int × Int)
  | [], ends => ends.map fun e => (DATE_START_ord, e)
  | s :: srest, ends =>
    match ends.dropWhile (fun e => e < s) with
    | [] => (s, DATE_END_ord) :: intervals_from_bounds_go srest []
    | e :: erest =>
      if s = e then (s, e) :: intervals_from_bounds_go srest erest
      else (s, e) :: intervals_from_bounds_go srest (e :: erest)

def intervals_from_bounds (bounds_start bounds_end : List Int) : List (Int × Int) :=
  intervals_from_bounds_go (ensure_increasing bounds_start) (ensure_increasing bounds_end)

/-- `interval_contains`. -/
def interval_contains (interval : Int × Int) (date : Int) : Bool :=
  date ≥ interval.1 ∧ date ≤ interval.2

/-- `is_open_from_intervals`. -/
def is_open_from_intervals (date : Int) (intervals : List (Int × Int)) : Bool :=
  match intervals.find? (fun x => date ≤ x.2) with
  | none => false
  | some iv => interval_contains iv date

/-- `next_change_from_intervals`. -/
def next_change_from_intervals (date : Int) (intervals : List (Int × Int)) : Int :=
  match intervals.find? (fun x => date ≤ x.2) with
  | none => DATE_END_ord
  | some iv => if iv.1 ≤ date then next_day iv.2 else iv.1

def is_open_from_bounds (date : Int) (bounds_start bounds_end : List Int) : Bool :=
  is_open_from_intervals date (intervals_from_bounds bounds_start bounds_end)

def next_change_from_bounds (date : Int) (bounds_start bounds_end : List Int) : Int :=
  next_change_from_intervals date (intervals_from_bounds bounds_start bounds_end)

/-- `valid_ymd_before`: the candidate days `reversed(range(28, day))`,
i.e. `day-1, day-2, …, 28`. -/
def ymd_candidates (day : Int) : List Int :=
  (List.range (day - 28).toNat).map fun i => day - 1 - i

def valid_ymd_before_go (year month : Int) : List Int → Int
  | [] => DATE_END_ord
  | x :: xs =>
    match create_date_opt year month x with
    | some d => d
    | none => valid_ymd_before_go year month xs

def valid_ymd_before (year month day : Int) : Int :=
  match create_date_opt year month day with
  | some d => d
  | none => valid_ymd_before_go year month (ymd_candidates day)

/-- `valid_ymd_after`: like `valid_ymd_before` but advancing to the next day;
when `next_day_opt` fails the loop continues. -/
def valid_ymd_after_go (year month : Int) : List Int → Int
  | [] => DATE_END_ord
  | x :: xs =>
    match create_date_opt year month x with
    | some d =>
      match next_day_opt d with
      | some d2 => d2
      | none => valid_ymd_after_go year month xs
    | none => valid_ymd_after_go year month xs

def valid_ymd_after (year month day : Int) : Int :=
  match create_date_opt year month day with
  | some d => d
  | none => valid_ymd_after_go year month (ymd_candidates day)

/-- `range(a, b)` as a list of `Int`. -/
def intRange (a b : Int) : List Int :=
  (List.range (b - a).toNat).map fun i => a + i

/-! ## ISO calendar (CPython `_isoweek1monday`, `date.isocalendar`,
`date.fromisocalendar`), used by `WeekRange` -/

def iso_week1_monday (year : Int) : Int :=
  let firstday := ymd2ord year 1 1
  let firstweekday := (firstday + 6) % 7
  let week1monday := firstday - firstweekday
  if firstweekday > 3 then week1monday + 7 else week1monday

/-- `date.isocalendar()` as `(year, week, weekday)` (week and weekday
1-based). -/
def isocalendar (ord : Int) : Int × Int × Int :=
  let year := (ord2ymd ord).year
  let week1monday := iso_week1_monday year
  let week := (ord - week1monday) / 7
  let day := (ord - week1monday) % 7
  if week < 0 then
    let year := year - 1
    let week1monday := iso_week1_monday year
    (year, (ord - week1monday) / 7 + 1, (ord - week1monday) % 7 + 1)
  else if week ≥ 52 ∧ ord ≥ iso_week1_monday (year + 1) then
    (year + 1, 1, day + 1)
  else
    (year, week + 1, day + 1)

/-- `date.fromisocalendar`; `none` when it raises `ValueError`. -/
def fromisocalendar (year week day : Int) : Option Int :=
  if ¬(1 ≤ year ∧ year ≤ 9999) then none
  else if ¬(0 < week ∧ week < 53) ∧
      ¬(week = 53 ∧ (ymd2ord year 1 1 % 7 = 4 ∨ (ymd2ord year 1 1 % 7 = 3 ∧ is_leap year))) then
    none
  else if ¬(0 < day ∧ day < 8) then none
  else
    let o := iso_week1_monday year + (week - 1) * 7 + (day - 1)
    if 1 ≤ o ∧ o ≤ maxOrdinal then some o else none

/-! ## Day selectors (`model/day.py`)

`filter` is `Bool`; `next_change_hint` is `Option Int`, where `none` models an
uncaught exception escaping the call (e.g. `datetime.date(10000, 1, 1)`). -/

/-- `filter_seq`: true if the list is empty or any element's filter is true. -/
def filter_seq {α : Type} (f : α → Bool) (seq : List α) : Bool :=
  seq.isEmpty ∨ seq.any f

/-- `next_change_hint_seq`: `DATE_END` for an empty list, else the minimum of
the hints (an exception in any element propagates). -/
def next_change_hint_seq {α : Type} (f : α → Option Int) (seq : List α) : Option Int :=
  match seq with
  | [] => some DATE_END_ord
  | _ =>
    match seq.mapM f with
    | none => none
    | some ds => some (ds.foldl min ds.headI)

/-- `YearRange`. -/
structure YearRange where
  start : Int
  «end» : Option Int
  step : Int := 1
deriving DecidableEq, Repr

def YearRange.filter (yr : YearRange) (date : Int) (_ctx : Context) : Bool :=
  let y := (ord2ymd date).year
  wrapping_contains yr.start (yr.«end».getD 9999) y ∧
    ((y - yr.start).natAbs : Int) % yr.step = 0

/-- Python `math.ceil(x / d)` for `x ≥ 0 < d` (the only case reached). -/
def pyCeilDiv (x d : Int) : Int := (x + d - 1) / d

def YearRange.next_change_hint (yr : YearRange) (date : Int) (_ctx : Context) : Option Int :=
  let y := (ord2ymd date).year
  match yr.«end» with
  | some e =>
    if yr.start > e then some DATE_ZERO_ord
    else if e < y then some DATE_END_ord
    else if y < yr.start then create_date_opt yr.start 1 1
    else if yr.step = 1 then create_date_opt (e + 1) 1 1
    else if (y - yr.start) % yr.step = 0 then create_date_opt (y + 1) 1 1
    else create_date_opt (yr.start + yr.step * pyCeilDiv (y - yr.start) yr.step) 1 1
  | none =>
    if y < yr.start then create_date_opt yr.start 1 1
    else some DATE_END_ord

/-- `MonthRange`. -/
structure MonthRange where
  start : Month
  «end» : Month
  year : Option Int := none
deriving DecidableEq, Repr

def MonthRange.filter (mr : MonthRange) (date : Int) (_ctx : Context) : Bool :=
  let ymd := ord2ymd date
  (mr.year.getD ymd.year) = ymd.year ∧ wrapping_contains mr.start mr.«end» ymd.month

def MonthRange.next_change_hint (mr : MonthRange) (date : Int) (_ctx : Context) : Option Int :=
  match mr.year with
  | none =>
    if monthNext mr.«end» = mr.start then some DATE_END_ord
    else
      let ymd := ord2ymd date
      let naiveOpt :=
        if wrapping_contains mr.start mr.«end» ymd.month then
          create_date_opt ymd.year (monthNext mr.«end») 1
        else
          create_date_opt ymd.year mr.start 1
      match naiveOpt with
      | none => none
      | some naive =>
        if naive > date then some naive
        else create_date_opt ((ord2ymd naive).year + 1) (ord2ymd naive).month 1
  | some yr =>
    match create_date_opt yr mr.start 1 with
    | none => some DATE_ZERO_ord
    | some s =>
      let eOpt :=
        if mr.start ≤ mr.«end» ∧ mr.«end» < 12 then create_date_opt yr (mr.«end» + 1) 1
        else create_date_opt (yr + 1) (mr.«end» % 12 + 1) 1
      match eOpt with
      | none => some DATE_ZERO_ord
      | some e => some (next_change_from_bounds date [s] [e])

inductive WeekDayOffsetKind where
  | NONE
  | NEXT
  | PREV
deriving DecidableEq, Repr

structure WeekDayOffset where
  kind : WeekDayOffsetKind := .NONE
  weekday : Weekday := 0
deriving DecidableEq, Repr

structure DateOffset where
  wday_offset : WeekDayOffset := {}
  day_offset : Int := 0
deriving DecidableEq, Repr

/-- `DateOffset.apply`.  The weekday delta is computed from the weekday of the
*original* date (as the source does); the source then asserts
`res.weekday() == wday` which can only hold when `day_offset = 0` — the
assert is not modelled. -/
def DateOffset.apply (o : DateOffset) (date : Int) : Int :=
  let res := date + o.day_offset
  match o.wday_offset.kind with
  | .PREV => res - ((7 + weekdayOfOrd date - o.wday_offset.weekday) % 7)
  | .NEXT => res + ((7 + o.wday_offset.weekday - weekdayOfOrd date) % 7)
  | .NONE => res

/-- `CalendarDate` (validity of the stored fields is the constructor's
`__post_init__` duty; we model values as given). -/
structure CalendarDate where
  year : Option Int
  month : Month
  day : Int
deriving DecidableEq, Repr

/-- `CalendarDate.to_date`; `none` models both the `ValueError` on missing
year and an invalid concrete date. -/
def CalendarDate.to_date (cd : CalendarDate) (for_year : Option Int) : Option Int :=
  match cd.year with
  | some y => create_date_opt y cd.month cd.day
  | none =>
    match for_year with
    | none => none
    | some fy => create_date_opt fy cd.month cd.day

inductive VariableDateKind where
  | EASTER
deriving DecidableEq, Repr

structure VariableDate where
  kind : VariableDateKind := .EASTER
  year : Option Int := none
deriving DecidableEq, Repr

/-- `VariableDate.easter`: anonymous Gregorian algorithm (`int(x / y)` is
truncating division; all intermediate values are non-negative for the years
the engine passes). -/
def easter (year : Int) : Option Int :=
  let a := year % 19
  let b := pyIntDiv year 100
  let c := year % 100
  let d := pyIntDiv b 4
  let e := b % 4
  let f := pyIntDiv (b + 8) 25
  let g := pyIntDiv (b - f + 1) 3
  let h := (19 * a + b - d - g + 15) % 30
  let i := pyIntDiv c 4
  let k := c % 4
  let l := (32 + 2 * e + 2 * i - h - k) % 7
  let m := pyIntDiv (a + 11 * h + 22 * l) 451
  let n := pyIntDiv (h + l - 7 * m + 114) 31
  let o := (h + l - 7 * m + 114) % 31
  create_date_opt year n (o + 1)

def VariableDate.to_date (vd : VariableDate) (for_year : Int) : Option Int :=
  match vd.kind with
  | .EASTER => easter (vd.year.getD for_year)

inductive DateUnion where
  | calendar (c : CalendarDate)
  | variableD (v : VariableDate)
deriving DecidableEq, Repr

def FEB_29 : CalendarDate := ⟨none, 2, 29⟩

/-- `date_on_year`: project a `DateUnion` on a given year using the given
date builder (`valid_ymd_after` / `valid_ymd_before`). -/
def date_on_year (du : DateUnion) (for_year : Int) (date_builder : Int → Int → Int → Int) :
    Option Int :=
  match du with
  | .variableD vd => vd.to_date for_year
  | .calendar cd =>
    match cd.year with
    | none => some (date_builder for_year cd.month cd.day)
    | some y => some (date_builder y cd.month cd.day)

/-- `DateRange`. -/
structure DateRange where
  start_date : DateUnion
  start_offset : DateOffset
  end_date : DateUnion
  end_offset : DateOffset
deriving DecidableEq, Repr

def DateRange.filter (dr : DateRange) (date : Int) (_ctx : Context) : Bool :=
  let y := (ord2ymd date).year
  if dr.start_date = .calendar FEB_29 ∧ dr.end_date = .calendar FEB_29 then
    let ydates := (intRange (y - 1) (9999 + 1)).filterMap fun yy => create_date_opt yy 2 29
    is_open_from_intervals date
      (ydates.map fun d => (dr.start_offset.apply d, dr.end_offset.apply d))
  else
    let ydates_start := (intRange (y - 1) (y + 2)).filterMap fun yy =>
      date_on_year dr.start_date yy valid_ymd_after
    let ydates_end := (intRange (y - 1) (y + 2)).filterMap fun yy =>
      date_on_year dr.end_date yy valid_ymd_before
    is_open_from_bounds date (ydates_start.map (dr.start_offset.apply ·))
      (ydates_end.map (dr.end_offset.apply ·))

def DateRange.next_change_hint (dr : DateRange) (date : Int) (_ctx : Context) : Option Int :=
  let y := (ord2ymd date).year
  match hstart : dr.start_date with
  | .calendar cs =>
    match cs.year, dr.end_date with
    | some _, .calendar ce =>
      match cs.to_date none with
      | none => none
      | some s0 =>
        let s := dr.start_offset.apply s0
        match ce.to_date cs.year with
        | none => none
        | some e0 =>
          let e := dr.end_offset.apply e0
          if s > e then
            match create_date_opt ((ord2ymd e).year + 1) (ord2ymd e).month (ord2ymd e).day with
            | none => none
            | some e2 => some (next_change_from_bounds date [s] [e2])
          else some (next_change_from_bounds date [s] [e])
    | _, _ =>
      if dr.start_date = .calendar FEB_29 ∧ dr.end_date = .calendar FEB_29 then
        let ydates := (intRange (y - 1) (9999 + 1)).filterMap fun yy => create_date_opt yy 2 29
        some (next_change_from_intervals date
          (ydates.map fun d => (dr.start_offset.apply d, dr.end_offset.apply d)))
      else
        let ydates_start := (intRange (y - 1) (y + 10)).filterMap fun yy =>
          date_on_year dr.start_date yy valid_ymd_after
        let ydates_end := (intRange (y - 1) (y + 10)).filterMap fun yy =>
          date_on_year dr.end_date yy valid_ymd_before
        some (next_change_from_bounds date (ydates_start.map (dr.start_offset.apply ·))
          (ydates_end.map (dr.end_offset.apply ·)))
  | .variableD _ =>
    if dr.start_date = .calendar FEB_29 ∧ dr.end_date = .calendar FEB_29 then
      some DATE_ZERO_ord
    else
      let ydates_start := (intRange (y - 1) (y + 10)).filterMap fun yy =>
        date_on_year dr.start_date yy valid_ymd_after
      let ydates_end := (intRange (y - 1) (y + 10)).filterMap fun yy =>
        date_on_year dr.end_date yy valid_ymd_before
      some (next_change_from_bounds date (ydates_start.map (dr.start_offset.apply ·))
        (ydates_end.map (dr.end_offset.apply ·)))

/-- `WeekRange`. -/
structure WeekRange where
  start : Int
  «end» : Int
  step : Int := 1
deriving DecidableEq, Repr

def WeekRange.filter (wr : WeekRange) (date : Int) (_ctx : Context) : Bool :=
  let week := (isocalendar date).2.1
  wrapping_contains wr.start wr.«end» week ∧ (max (week - wr.start) 0) % wr.step = 0

/-- The `while res <= date` loop of `WeekRange.next_change_hint`.  Each pass
moves to the requested week of the next ISO year, so the ISO year grows by one
per pass and `fromisocalendar` fails (→ `DATE_ZERO`) once it passes 9999; the
fuel (20050) therefore never runs out for meaningful inputs. -/
def week_hint_loop (weeknum date : Int) : Nat → Int → Int
  | 0, _ => DATE_ZERO_ord
  | fuel + 1, res =>
    if res ≤ date then
      match fromisocalendar ((isocalendar res).1 + 1) weeknum 1 with
      | none => DATE_ZERO_ord
      | some res2 => week_hint_loop weeknum date fuel res2
    else res

def WeekRange.next_change_hint (wr : WeekRange) (date : Int) (_ctx : Context) : Option Int :=
  let isoc := isocalendar date
  let week := isoc.2.1
  if wr.start > wr.«end» then some DATE_ZERO_ord
  else
    let weeknumOpt : Option Int :=
      if wrapping_contains wr.start wr.«end» week then
        if wr.step = 1 then some (wr.«end» % 54 + 1)
        else if (week - wr.start) % wr.step = 0 then some (week % 54 + 1)
        else none
      else some wr.start
    match weeknumOpt with
    | none => some DATE_ZERO_ord
    | some weeknum =>
      match fromisocalendar isoc.1 weeknum 1 with
      | none => some DATE_ZERO_ord
      | some res => some (week_hint_loop weeknum date 20050 res)

/-- `WeekDayRange`. -/
structure WeekDayRange where
  start : Weekday
  «end» : Weekday
  offset : Int := 0
  nth_from_start : Bitfield := Bitfield.mkEmpty 5
  nth_from_end : Bitfield := Bitfield.mkEmpty 5
deriving DecidableEq, Repr

/-- `Bitfield.get` at an `Int` index (a negative index would raise in the
source; it is unreachable, see `C9_all_set_bitfields`). -/
def Bitfield.getI (b : Bitfield) (i : Int) : Bool :=
  if 0 ≤ i then b.get i.toNat else false

/-- The non-wrapping core of `WeekDayRange.filter` (the body below the
wrapping split). -/
def WeekDayRange.filter_nonwrap (w : WeekDayRange) (date : Int) : Bool :=
  let d := date - w.offset
  let ymd := ord2ymd d
  let pos_from_start := pyIntDiv (ymd.day - 1) 7
  let pos_from_end := pyIntDiv (days_in_month ymd.year ymd.month - ymd.day) 7
  wrapping_contains w.start w.«end» (weekdayOfOrd d) ∧
    (w.nth_from_start.getI pos_from_start ∨ w.nth_from_end.getI pos_from_end)

/-- `WeekDayRange.filter`: a wrapping range splits into the two non-wrapping
halves `start..Su` and `Mo..end`. -/
def WeekDayRange.filter (w : WeekDayRange) (date : Int) (_ctx : Context) : Bool :=
  if w.start > w.«end» then
    WeekDayRange.filter_nonwrap ⟨w.start, Weekday.Su, w.offset, w.nth_from_start, w.nth_from_end⟩ date ∨
      WeekDayRange.filter_nonwrap ⟨Weekday.Mo, w.«end», w.offset, w.nth_from_start, w.nth_from_end⟩ date
  else
    WeekDayRange.filter_nonwrap w date

def WeekDayRange.next_change_hint (_w : WeekDayRange) (_date : Int) (_ctx : Context) :
    Option Int :=
  some DATE_ZERO_ord

/-- The bitfield defaulting step of the parser's `build_weekday_range`
(`parser.py` lines 420-422): when no `nth` entry set any bit, both bitfields
are set to all-ones. -/
def normalize_nth (nth_from_start nth_from_end : Bitfield) : Bitfield × Bitfield :=
  if ¬nth_from_start.containsVal true ∧ ¬nth_from_end.containsVal true then
    (nth_from_start.set_all true, nth_from_end.set_all true)
  else
    (nth_from_start, nth_from_end)

/-- The all-ones bitfield produced by `build_weekday_range`'s defaulting
(`nth_from_start.set_all(True)`). -/
def allSetBitfield : Bitfield := (Bitfield.mkEmpty 5).set_all true

/-- `HolidayRange`. -/
structure HolidayRange where
  kind : HolidayKind
  offset : Int := 0
deriving DecidableEq, Repr

def HolidayRange.filter (h : HolidayRange) (date : Int) (ctx : Context) : Bool :=
  ctx.holidays_is_holiday (date - h.offset) h.kind

/-- `HolidayRange.next_change_hint`.  On a holiday the source returns
`next_day_opt(d) or DATE_ZERO` for the *offset-adjusted* date `d`, without
shifting back by the offset (compare the `first_holiday_after` branch, which
does shift). -/
def HolidayRange.next_change_hint (h : HolidayRange) (date : Int) (ctx : Context) :
    Option Int :=
  let d := date - h.offset
  if ctx.holidays_is_holiday d h.kind then
    some ((next_day_opt d).getD DATE_ZERO_ord)
  else
    match ctx.holidays_first_holiday_after d h.kind with
    | some nxt => some (nxt + h.offset)
    | none => some DATE_END_ord

inductive MonthdayRange where
  | month (m : MonthRange)
  | dateR (d : DateRange)
deriving DecidableEq, Repr

def MonthdayRange.filter (m : MonthdayRange) (date : Int) (ctx : Context) : Bool :=
  match m with
  | .month mr => mr.filter date ctx
  | .dateR dr => dr.filter date ctx

def MonthdayRange.next_change_hint (m : MonthdayRange) (date : Int) (ctx : Context) :
    Option Int :=
  match m with
  | .month mr => mr.next_change_hint date ctx
  | .dateR dr => dr.next_change_hint date ctx

inductive WeekDayRangeUnion where
  | weekday (w : WeekDayRange)
  | holiday (h : HolidayRange)
deriving DecidableEq, Repr

def WeekDayRangeUnion.filter (w : WeekDayRangeUnion) (date : Int) (ctx : Context) : Bool :=
  match w with
  | .weekday wd => wd.filter date ctx
  | .holiday h => h.filter date ctx

def WeekDayRangeUnion.next_change_hint (w : WeekDayRangeUnion) (date : Int) (ctx : Context) :
    Option Int :=
  match w with
  | .weekday wd => wd.next_change_hint date ctx
  | .holiday h => h.next_change_hint date ctx

/-- `DaySelector`. -/
structure DaySelector where
  year : List YearRange := []
  monthday : List MonthdayRange := []
  week : List WeekRange := []
  weekday : List WeekDayRangeUnion := []
deriving DecidableEq, Repr

def DaySelector.is_empty (ds : DaySelector) : Bool :=
  ds.year.isEmpty ∧ ds.monthday.isEmpty ∧ ds.week.isEmpty ∧ ds.weekday.isEmpty

def DaySelector.filter (ds : DaySelector) (date : Int) (ctx : Context) : Bool :=
  filter_seq (·.filter date ctx) ds.year ∧
    filter_seq (·.filter date ctx) ds.monthday ∧
    filter_seq (·.filter date ctx) ds.week ∧
    filter_seq (·.filter date ctx) ds.weekday

/-- `DaySelector.next_change_hint`: `DATE_END` when empty, else the minimum
of the four per-list hints (the `or DATE_ZERO` of the source is dead code:
`datetime.date` objects are always truthy). -/
def DaySelector.next_change_hint (ds : DaySelector) (date : Int) (ctx : Context) :
    Option Int :=
  if ds.is_empty then some DATE_END_ord
  else
    match next_change_hint_seq (·.next_change_hint date ctx) ds.year with
    | none => none
    | some p1 =>
      match next_change_hint_seq (·.next_change_hint date ctx) ds.monthday with
      | none => none
      | some p2 =>
        match next_change_hint_seq (·.next_change_hint date ctx) ds.week with
        | none => none
        | some p3 =>
          match next_change_hint_seq (·.next_change_hint date ctx) ds.weekday with
          | none => none
          | some p4 => some (min (min (min p1 p2) p3) p4)

/-! ## Expressions (`model/__init__.py`) -/

/-- `RuleSequence` (comments are a `UniqueSortedList` of strings). -/
structure RuleSequence where
  day_selector : DaySelector
  time_selector : TimeSelector
  kind : RuleKind
  operator : RuleOperator
  comments : List String
deriving DecidableEq, Repr

instance : Inhabited RuleSequence :=
  ⟨⟨{}, mkTimeSelector [], RuleKind.OPEN, RuleOperator.NORMAL, []⟩⟩

/-- `RuleSequence.is_constant`. -/
def RuleSequence.is_constant (rs : RuleSequence) : Bool :=
  rs.day_selector.is_empty ∧ rs.time_selector.is_00_24

/-- `OpeningHoursExpression`. -/
structure OpeningHoursExpression where
  rules : List RuleSequence
deriving DecidableEq, Repr

/-- `OpeningHoursExpression.is_constant`: scan the rules from the end while
they are full-day rules of the tail's kind; the first rule breaking the scan
decides. -/
def OpeningHoursExpression.is_constant (e : OpeningHoursExpression) : Bool :=
  match e.rules with
  | [] => true
  | _ =>
    let kind := e.rules.reverse.headI.kind
    match e.rules.reverse.find? (fun rs =>
        rs.day_selector.is_empty ∨ ¬rs.time_selector.is_00_24 ∨ rs.kind ≠ kind) with
    | none => kind = RuleKind.CLOSED
    | some search_tail_full => search_tail_full.kind = kind ∧ search_tail_full.is_constant

/-! ## `OpeningHours._next_change_hint` (`opening_hours.py`) -/

/-- The per-rule date of `OpeningHours._next_change_hint`'s loop body
(after the `if d is None: d = DATE_ZERO` conversion, which only applies to
`next_day_opt`; the day-selector hint always returns a date).  `none` models
an exception escaping the hint computation. -/
def rule_hint_date (rule : RuleSequence) (date : Int) (ctx : Context) : Option Int :=
  if rule.time_selector.is_immutable_full_day ∨ ¬rule.day_selector.filter date ctx then
    rule.day_selector.next_change_hint date ctx
  else
    some ((next_day_opt date).getD DATE_ZERO_ord)

/-- `OpeningHours._next_change_hint`.  Outer `none` = a rule's hint raised;
inner `none` = the method returns `None` (caller falls back to the next
day). -/
def OpeningHours_next_change_hint (expr : OpeningHoursExpression) (ctx : Context)
    (date : Int) : Option (Option Int) :=
  if date < DATE_START_ord then some (some DATE_START_ord)
  else if expr.is_constant then some (some DATE_END_ord)
  else
    match expr.rules.mapM (fun r => rule_hint_date r date ctx) with
    | none => none
    | some ds =>
      match ds with
      | [] => some none
      | _ =>
        let first_date := ds.foldl min ds.headI
        if first_date = DATE_ZERO_ord then some none else some (some first_date)

/-- The next-change-hint algorithm exactly as claim C4 words it: the rule's
day-selector hint is taken when the rule matches today with a non-full-day
time-selector, or when the rule does not match today; `d+1` is taken when the
rule matches today and its time-selector is full-day.  (Stated for
comparison with the code; see `C4_claim_conditions_inverted`.) -/
def claim4_next_change_hint (expr : OpeningHoursExpression) (ctx : Context)
    (date : Int) : Option (Option Int) :=
  if expr.is_constant then some (some DATE_END_ord)
  else
    match expr.rules.mapM (fun r =>
        if r.day_selector.filter date ctx ∧ r.time_selector.is_immutable_full_day then
          some ((next_day_opt date).getD DATE_ZERO_ord)
        else
          r.day_selector.next_change_hint date ctx) with
    | none => none
    | some ds =>
      match ds.min? with
      | none => some none
      | some m => if m = DATE_ZERO_ord then some none else some (some m)

/-- The amended claim C4 as a definition: like `claim4_next_change_hint` but
with the conditions the code actually uses (day-selector hint when the
time-selector is immutably full-day *or* the rule does not match today; `d+1`
when the rule matches with a non-full-day time-selector), plus the
`date < DATE_START` guard; the result is the minimum over the rules, `None`
when that minimum is `DATE_ZERO`. -/
def spec4_next_change_hint (expr : OpeningHoursExpression) (ctx : Context)
    (date : Int) : Option (Option Int) :=
  if date < DATE_START_ord then some (some DATE_START_ord)
  else if expr.is_constant then some (some DATE_END_ord)
  else
    match expr.rules.mapM (fun r =>
        if r.time_selector.is_immutable_full_day ∨ ¬r.day_selector.filter date ctx then
          r.day_selector.next_change_hint date ctx
        else
          some ((next_day_opt date).getD DATE_ZERO_ord)) with
    | none => none
    | some ds =>
      match ds.min? with
      | none => some none
      | some m => if m = DATE_ZERO_ord then some none else some (some m)

/-! ## `UniqueSortedList` (`util.py`)

Only `union` is needed by the engine paths we verify; the merge recursion of
the source (pop the larger tail, recurse, append) is transcribed with a fuel
argument bounding the recursion depth by the combined length. -/

def us_union_go : Nat → List String → List String → List String
  | 0, x, _ => x
  | fuel + 1, x, y =>
    if y.isEmpty then x
    else if x.isEmpty then y
    else
      let head_x := x.headI
      let head_y := y.headI
      let tail_x := x.getLast!
      let tail_y := y.getLast!
      if tail_x < head_y then x ++ y
      else if tail_y < head_x then y ++ x
      else if tail_y < tail_x then us_union_go fuel x.dropLast y ++ [tail_x]
      else if tail_x < tail_y then us_union_go fuel x y.dropLast ++ [tail_y]
      else us_union_go fuel x.dropLast y.dropLast ++ [tail_x]

/-- `UniqueSortedList.union`. -/
def us_union (x y : List String) : List String :=
  us_union_go (x.length + y.length + 1) x y

/-! ## Schedules (`schedule.py`) -/

/-- `TimeRange` (`schedule.py`). -/
structure TimeRange where
  start : ExtendedTime
  «end» : ExtendedTime
  kind : RuleKind
  comments : List String := []
deriving DecidableEq, Repr

instance : Inhabited TimeRange :=
  ⟨⟨MIDNIGHT_00, MIDNIGHT_00, RuleKind.CLOSED, []⟩⟩

/-- `TimeRange.contains_time` (for a `datetime.time`, i.e. a time of day
below 24:00): inclusive at both ends. -/
def TimeRange.contains_time (tr : TimeRange) (mins : Int) : Bool :=
  tr.start.mins_from_midnight ≤ mins ∧ mins ≤ tr.«end».mins_from_midnight

/-- Python's stable `list.sort(key=lambda r: r.start)` on `TimeRange`s. -/
def sortTimeRangesInsert (x : TimeRange) : List TimeRange → List TimeRange
  | [] => [x]
  | y :: ys =>
    if ExtendedTime.le x.start y.start then x :: y :: ys else y :: sortTimeRangesInsert x ys

def sortTimeRangesByStart : List TimeRange → List TimeRange
  | [] => []
  | x :: xs => sortTimeRangesInsert x (sortTimeRangesByStart xs)

/-- The coalescing `while` loop of `Schedule.from_ranges`, index `i`, with
the source's `sched_ranges.pop(i + i)` transcribed as is; `none` models the
`IndexError` when `i + i` is out of range.  The fuel bounds the iteration
count (each pass pops an element or advances `i`). -/
def from_ranges_loop : Nat → Nat → List TimeRange → Option (List TimeRange)
  | 0, _, l => some l
  | fuel + 1, i, l =>
    if i + 1 < l.length then
      let ri := l.getD i default
      let rnext := l.getD (i + 1) default
      if ExtendedTime.le rnext.start ri.«end» then
        let l1 := l.set i ⟨ri.start, rnext.«end», ri.kind, ri.comments⟩
        let comments_left := (l1.getD i default).comments
        if i + i < l1.length then
          let comments_right := (l1.getD (i + i) default).comments
          let l2 := l1.eraseIdx (i + i)
          let l3 := l2.set i
            ⟨(l2.getD i default).start, (l2.getD i default).«end», (l2.getD i default).kind,
              us_union comments_left comments_right⟩
          from_ranges_loop fuel i l3
        else none
      else from_ranges_loop fuel (i + 1) l
    else some l

/-- `Schedule.from_ranges`: keep the non-empty ranges, sort by start, then
run the coalescing loop. -/
def Schedule.from_ranges (ranges : List (ExtendedTime × ExtendedTime)) (kind : RuleKind)
    (comments : List String := []) : Option (List TimeRange) :=
  let sched := sortTimeRangesByStart
    ((ranges.filter fun r => ExtendedTime.lt r.1 r.2).map fun r => ⟨r.1, r.2, kind, comments⟩)
  from_ranges_loop (2 * sched.length + 2) 0 sched

/-- The scan building `before`/`after` in `Schedule.insert`; eclipsed pieces
donate their comments to the inserted range. -/
def insert_scan_step (tr_start tr_end : ExtendedTime)
    (acc : List TimeRange × List TimeRange × List String) (r : TimeRange) :
    List TimeRange × List TimeRange × List String :=
  let (before, after, insComments) := acc
  let (before, insComments) :=
    if ExtendedTime.lt r.start tr_end then
      let range_end := etMin r.«end» tr_start
      if ExtendedTime.lt r.start range_end then
        (before ++ [⟨r.start, range_end, r.kind, r.comments⟩], insComments)
      else (before, us_union insComments r.comments)
    else (before, insComments)
  if ExtendedTime.lt tr_start r.«end» then
    let range_start := etMax r.start tr_end
    if ExtendedTime.lt range_start r.«end» then
      (before, after ++ [⟨range_start, r.«end», r.kind, r.comments⟩], insComments)
    else (before, after, us_union insComments r.comments)
  else (before, after, insComments)

/-- The left-extension loop of `Schedule.insert` (`before` given reversed). -/
def insert_extend_left (kind : RuleKind) :
    ExtendedTime → List String → List TimeRange → ExtendedTime × List String × List TimeRange
  | tr_start, comments, [] => (tr_start, comments, [])
  | tr_start, comments, b :: rest =>
    if b.«end» = tr_start ∧ b.kind = kind then
      insert_extend_left kind b.start (us_union b.comments comments) rest
    else (tr_start, comments, b :: rest)

/-- The right-extension loop of `Schedule.insert`. -/
def insert_extend_right (kind : RuleKind) :
    ExtendedTime → List String → List TimeRange → ExtendedTime × List String × List TimeRange
  | tr_end, comments, [] => (tr_end, comments, [])
  | tr_end, comments, a :: rest =>
    if ¬(tr_end ≠ a.start ∨ kind ≠ a.kind) then
      insert_extend_right kind a.«end» (us_union a.comments comments) rest
    else (tr_end, comments, a :: rest)

/-- `Schedule.insert`. -/
def Schedule.insert (ranges : List TimeRange) (ins_tr : TimeRange) : List TimeRange :=
  let (before, after, insComments) :=
    ranges.foldl (insert_scan_step ins_tr.start ins_tr.«end») ([], [], ins_tr.comments)
  let (new_start, insComments, before_rest_rev) :=
    insert_extend_left ins_tr.kind ins_tr.start insComments before.reverse
  let (new_end, insComments, after_rest) :=
    insert_extend_right ins_tr.kind ins_tr.«end» insComments after
  before_rest_rev.reverse ++ [⟨new_start, new_end, ins_tr.kind, insComments⟩] ++ after_rest

/-- `Schedule.addition`: right-fold of `insert` over the other schedule's
ranges (the source pops from the end and recurses). -/
def Schedule.addition_go : List TimeRange → List TimeRange → List TimeRange
  | s, [] => s
  | s, tr :: rest => Schedule.addition_go (Schedule.insert s tr) rest

def Schedule.addition (s other : List TimeRange) : List TimeRange :=
  Schedule.addition_go s other.reverse

/-! ### `ScheduleIterator` (`schedule.py`)

The Python class is a pull-based generator over the schedule's ranges with
state `(last_end, holes_state = CLOSED)`.  We reorganise it as a single
left-to-right pass over the ranges with an accumulator
`(out, pending, stopped)`:

* `out` (reversed) holds the values already yielded; `last_end` is the end of
  its head (or `MIDNIGHT_00`);
* `pending` is the `yielded_range` currently being grown inside `__next__`
  (absorbing same-kind ranges and, for `CLOSED`, holes);
* `stopped` records that a yield made `last_end ≥ MIDNIGHT_24`, after which
  `__next__` raises `StopIteration` and the remaining ranges are never
  consumed.

Each constructor of the source loop maps to one branch below; `si_restart`
is "return `__pre_yield(yielded_range)`, then re-enter `__next__` with the
same peeked range". -/

/-- `last_end` of the iterator state (`out` is reversed). -/
def lastEndOf (out : List TimeRange) : ExtendedTime :=
  match out with
  | [] => MIDNIGHT_00
  | r :: _ => r.«end»

structure SIAcc where
  out : List TimeRange
  pending : Option TimeRange
  stopped : Bool
deriving DecidableEq, Repr

/-- Emit `p`, then re-enter `__next__` with `r` still peeked: stop if
`last_end ≥ MIDNIGHT_24`; else consume `r` when it starts at `last_end`,
otherwise open a hole and compare kinds once (the hole's end equals
`r.start`, so the `while` body goes straight to the kind comparison). -/
def si_restart (p r : TimeRange) (out : List TimeRange) : SIAcc :=
  let out2 := p :: out
  if ExtendedTime.le MIDNIGHT_24 p.«end» then ⟨out2, none, true⟩
  else if r.start = p.«end» then ⟨out2, some r, false⟩
  else
    let hole : TimeRange := ⟨p.«end», r.start, RuleKind.CLOSED, []⟩
    if hole.kind = r.kind then
      ⟨out2, some ⟨hole.start, r.«end», hole.kind, us_union hole.comments r.comments⟩, false⟩
    else
      let out3 := hole :: out2
      if ExtendedTime.le MIDNIGHT_24 hole.«end» then ⟨out3, none, true⟩
      else ⟨out3, some r, false⟩

/-- The kind comparison of the `while` body: absorb a same-kind `r` into the
pending range, else yield the pending range. -/
def si_kind_compare (p r : TimeRange) (out : List TimeRange) : SIAcc :=
  if p.kind ≠ r.kind then si_restart p r out
  else ⟨out, some ⟨p.start, r.«end», p.kind, us_union p.comments r.comments⟩, false⟩

/-- One `while`-body iteration for the peeked `r` with pending `p`:
a gap before `r` extends a `CLOSED` pending range (then kinds are compared),
and makes any other pending range yield. -/
def si_while_step (p r : TimeRange) (out : List TimeRange) : SIAcc :=
  if ExtendedTime.lt p.«end» r.start then
    if p.kind = RuleKind.CLOSED then
      si_kind_compare ⟨p.start, r.start, p.kind, p.comments⟩ r out
    else si_restart p r out
  else si_kind_compare p r out

/-- Entry of `__next__` when no range is being grown: stop when
`last_end ≥ MIDNIGHT_24`; start from the peeked range when it begins at
`last_end`, else from a hole. -/
def si_start (r : TimeRange) (out : List TimeRange) : SIAcc :=
  let le := lastEndOf out
  if ExtendedTime.le MIDNIGHT_24 le then ⟨out, none, true⟩
  else if r.start = le then ⟨out, some r, false⟩
  else si_while_step ⟨le, r.start, RuleKind.CLOSED, []⟩ r out

def si_step (acc : SIAcc) (r : TimeRange) : SIAcc :=
  if acc.stopped then acc
  else
    match acc.pending with
    | none => si_start r acc.out
    | some p => si_while_step p r acc.out

/-- End of the range stream: a pending `CLOSED` range is widened to
`MIDNIGHT_24`; any other pending range is yielded and, if it ends before
`MIDNIGHT_24`, a final `CLOSED` hole completes the day; with nothing pending
the remaining gap up to `MIDNIGHT_24` is emitted. -/
def si_finalize (acc : SIAcc) : List TimeRange :=
  if acc.stopped then acc.out.reverse
  else
    match acc.pending with
    | some p =>
      if p.kind = RuleKind.CLOSED then
        ((⟨p.start, MIDNIGHT_24, p.kind, p.comments⟩ : TimeRange) :: acc.out).reverse
      else if ExtendedTime.le MIDNIGHT_24 p.«end» then (p :: acc.out).reverse
      else ((⟨p.«end», MIDNIGHT_24, RuleKind.CLOSED, []⟩ : TimeRange) :: p :: acc.out).reverse
    | none =>
      let le := lastEndOf acc.out
      if ExtendedTime.le MIDNIGHT_24 le then acc.out.reverse
      else ((⟨le, MIDNIGHT_24, RuleKind.CLOSED, []⟩ : TimeRange) :: acc.out).reverse

/-- The full value stream of `ScheduleIterator` over a schedule's ranges. -/
def scheduleIterate (ranges : List TimeRange) : List TimeRange :=
  si_finalize (ranges.foldl si_step ⟨[], none, false⟩)

/-! ### Specification predicates for the schedule iterator -/

/-- A normalised `ExtendedTime` (every time the engine builds: minutes in
`0..59`, non-negative hours).  For normalised times, equality of
minutes-from-midnight coincides with structural equality. -/
def etNorm (t : ExtendedTime) : Prop :=
  0 ≤ t.hour ∧ 0 ≤ t.minute ∧ t.minute ≤ 59

/-- A well-formed schedule member: normalised bounds, positive length. -/
def trWF (r : TimeRange) : Prop :=
  etNorm r.start ∧ etNorm r.«end» ∧
    r.start.mins_from_midnight < r.«end».mins_from_midnight

/-- The `Schedule` data invariant claim C5 assumes: well-formed ranges,
sorted and pairwise disjoint. -/
def ScheduleWF (l : List TimeRange) : Prop :=
  (∀ r ∈ l, trWF r) ∧
    List.Chain' (fun a b => a.«end».mins_from_midnight ≤ b.start.mins_from_midnight) l

/-- The ranges `l` tile the time axis gaplessly starting at `t`. -/
def contiguousFrom : ExtendedTime → List TimeRange → Prop
  | _, [] => True
  | t, r :: rest => r.start = t ∧ contiguousFrom r.«end» rest

/-- No two adjacent ranges share a kind. -/
def alternatingKinds (l : List TimeRange) : Prop :=
  List.Chain' (fun a b => a.kind ≠ b.kind) l

/-- Minute `t` lies inside one of the ranges of `inputs`. -/
def coveredBy (inputs : List TimeRange) (t : Int) : Prop :=
  ∃ q ∈ inputs, q.start.mins_from_midnight ≤ t ∧ t < q.«end».mins_from_midnight

/-- The end of the last range of `l`, or `t` when `l` is empty. -/
def lastEndD (t : ExtendedTime) (l : List TimeRange) : ExtendedTime :=
  match l.getLast? with
  | none => t
  | some r => r.«end»

/-- Invariant of the `ScheduleIterator` fold: `L` is the full input list,
`B` an upper bound on the pending range's end (kept `≤` the next input's
start by the input chain). -/
structure SIInv (L : List TimeRange) (B : Int) (acc : SIAcc) : Prop where
  chain : contiguousFrom MIDNIGHT_00 (acc.out.reverse ++ acc.pending.toList)
  out_wf : ∀ r ∈ acc.out, r.start.mins_from_midnight < r.«end».mins_from_midnight
  pend_wf : ∀ p ∈ acc.pending, p.start.mins_from_midnight < p.«end».mins_from_midnight
  pend_norm : ∀ p ∈ acc.pending, etNorm p.start ∧ etNorm p.«end»
  alt : alternatingKinds acc.out.reverse
  seam : ∀ p ∈ acc.pending, ∀ h ∈ acc.out.head?, p.kind ≠ h.kind
  noneEmpty : acc.pending = none → acc.stopped = false → acc.out = []
  stoppedInv : acc.stopped = true → acc.pending = none ∧ acc.out ≠ [] ∧
    (∀ h ∈ acc.out.head?, 1440 ≤ h.«end».mins_from_midnight) ∧
    (∀ r ∈ acc.out.tail, r.«end».mins_from_midnight < 1440)
  endsLt : acc.stopped = false → ∀ r ∈ acc.out, r.«end».mins_from_midnight < 1440
  pendBound : ∀ p ∈ acc.pending, p.«end».mins_from_midnight ≤ B
  cover : ∀ r' ∈ acc.out.reverse ++ acc.pending.toList, r'.kind ≠ RuleKind.CLOSED →
    ∀ t : Int, r'.start.mins_from_midnight ≤ t → t < r'.«end».mins_from_midnight →
      coveredBy L t

/-- The expression `2020-2030` (one rule: year selector `2020-2030`, default
full-day time selector, kind `open`), used to separate claim C4's wording
from the code. -/
def c4expr : OpeningHoursExpression :=
  ⟨[⟨⟨[⟨2020, some 2030, 1⟩], [], [], []⟩, mkTimeSelector [], RuleKind.OPEN,
    RuleOperator.NORMAL, []⟩]⟩

/-! ## `OpeningHours.schedule_at` and `TimeDomainIterator` (`opening_hours.py`)

Datetimes are total minutes `ordinal * 1440 + minutes-of-day`; `date()` is
division by 1440 and `time()` the remainder.  `Option` layers model raised
exceptions (outer) and Python `None` (inner). -/

/-- `Schedule.is_always_closed`. -/
def Schedule.is_always_closed (l : List TimeRange) : Bool :=
  l.all fun r => r.kind = RuleKind.CLOSED

/-- `rule_sequence_schedule_at`: outer `none` = an exception escaped
(`from_ranges` / time resolution), inner `none` = Python `None` (the rule
does not apply on this date). -/
def rule_sequence_schedule_at (rs : RuleSequence) (date : Int) (ctx : Context) :
    Option (Option (List TimeRange)) :=
  let ft : Option (Option (List TimeRange)) :=
    if rs.day_selector.filter date ctx then
      match rs.time_selector.intervals_at date ctx with
      | none => none
      | some ivs =>
        match Schedule.from_ranges ivs rs.kind rs.comments with
        | none => none
        | some s => some (some s)
    else some none
  match ft with
  | none => none
  | some from_today =>
    let fy : Option (Option (List TimeRange)) :=
      match prev_day_opt date with
      | some pd =>
        if rs.day_selector.filter pd ctx then
          match rs.time_selector.intervals_at_next_day date ctx with
          | none => none
          | some ivs =>
            match Schedule.from_ranges ivs rs.kind rs.comments with
            | none => none
            | some s => some (some s)
        else some none
      | none => some none
    match fy with
    | none => none
    | some from_yesterday =>
      match from_today, from_yesterday with
      | some t, some y => some (some (Schedule.addition t y))
      | some t, none => some (some t)
      | none, y => some y

/-- One rule of the `schedule_at` loop: state is `(prev_match, prev_eval)`
(an empty `Schedule` is truthy in Python, so `x or y` on schedules is
`Option.orElse`, not emptiness). -/
def schedule_at_step (date : Int) (ctx : Context)
    (st : Bool × Option (List TimeRange)) (rs : RuleSequence) :
    Option (Bool × Option (List TimeRange)) :=
  match rule_sequence_schedule_at rs date ctx with
  | none => none
  | some curr_eval =>
    let prev_match := st.1
    let prev_eval := st.2
    let curr_match := rs.day_selector.filter date ctx
    if rs.operator = RuleOperator.NORMAL ∧
        (rs.kind = RuleKind.OPEN ∨ rs.kind = RuleKind.UNKNOWN) then
      some (curr_match || prev_match,
        if curr_match then curr_eval else prev_eval.orElse fun _ => curr_eval)
    else if rs.operator = RuleOperator.ADDITIONAL ∨
        (rs.operator = RuleOperator.NORMAL ∧ rs.kind = RuleKind.CLOSED) then
      some (curr_match || prev_match,
        match prev_eval, curr_eval with
        | some pe, some ce => some (Schedule.addition pe ce)
        | _, _ => prev_eval.orElse fun _ => curr_eval)
    else
      if prev_match && (match prev_eval with
          | none => true
          | some pe => ! Schedule.is_always_closed pe) then
        some (prev_match, prev_eval)
      else some (curr_match, curr_eval)

/-- `OpeningHours.schedule_at`. -/
def OpeningHours_schedule_at (expr : OpeningHoursExpression) (ctx : Context)
    (date : Int) : Option (List TimeRange) :=
  if date < DATE_START_ord ∨ date > DATE_END_ord then some []
  else
    match expr.rules.foldlM (schedule_at_step date ctx) (false, none) with
    | none => none
    | some st => some (st.2.getD [])

/-- `DateTimeRange` (`model/util.py`), with datetimes as total minutes. -/
structure DateTimeRange where
  start : Int
  «end» : Int
  kind : RuleKind
  comments : List String := []
deriving DecidableEq, Repr

/-- `DATE_END` as a datetime (midnight of its day). -/
def DATE_END_dt : Int := DATE_END_ord * 1440

/-- The two methods of `OpeningHours` the iterator consults, plus the
context's interval bound (`None` by default). -/
structure TDIEnv where
  stream : Int → Option (List TimeRange)
  hint : Int → Option (Option Int)
  approx : Option Int

/-- The iterator's mutable state: current date and the not-yet-consumed
suffix of the current day's schedule stream. -/
structure TDIState where
  curr_date : Int
  curr : List TimeRange
deriving DecidableEq, Repr

/-- `TimeDomainIterator.__init__`: empty stream when `start ≥ end`, then the
`while`-advance past ranges not containing `start_time` (inclusive at both
ends in `contains_time`). -/
def tdi_init (E : TDIEnv) (start_dt end_dt : Int) : Option TDIState :=
  let start_date := start_dt / 1440
  let start_time := start_dt % 1440
  match (if end_dt ≤ start_dt then some [] else E.stream start_date) with
  | none => none
  | some l =>
    some ⟨start_date, l.dropWhile fun tr => ! tr.contains_time start_time⟩

/-- `TimeDomainIterator._consume_until_next_kind` (fueled; `none` = a failed
`assert` or an exception from the schedule/hint, or fuel exhaustion). -/
def tdi_consume (E : TDIEnv) (end_dt : Int) (curr_kind : RuleKind)
    (start_date : Int) : Nat → TDIState → Option TDIState
  | 0, _ => none
  | fuel + 1, st =>
    match st.curr with
    | [] => some st
    | tr :: rest =>
      if tr.kind ≠ curr_kind then some st
      else if (match E.approx with
          | some a => decide ((st.curr_date - start_date) * 1440 > a + 1440)
          | none => false) then some st
      else
        match rest with
        | _ :: _ => tdi_consume E end_dt curr_kind start_date fuel ⟨st.curr_date, rest⟩
        | [] =>
          match E.hint st.curr_date with
          | none => none
          | some h =>
            match h.orElse fun _ => next_day_opt st.curr_date with
            | none => none
            | some nd =>
              if nd ≤ st.curr_date then none
              else if nd ≤ end_dt / 1440 ∧ nd < DATE_END_ord then
                match E.stream nd with
                | none => none
                | some l => tdi_consume E end_dt curr_kind start_date fuel ⟨nd, l⟩
              else tdi_consume E end_dt curr_kind start_date fuel ⟨nd, []⟩

/-- `TimeDomainIterator.__next__`: outer `none` = exception (including
`to_sys` on an hour past 24), `some none` = `StopIteration`. -/
def tdi_next (E : TDIEnv) (end_dt : Int) (fuel : Nat) (st : TDIState) :
    Option (Option (DateTimeRange × TDIState)) :=
  match st.curr with
  | [] => some none
  | tr :: _ =>
    if 1440 ≤ tr.start.mins_from_midnight then none
    else
      let s := st.curr_date * 1440 + tr.start.mins_from_midnight
      match tdi_consume E end_dt tr.kind st.curr_date fuel st with
      | none => none
      | some st2 =>
        let end_time := (st2.curr.head?.map fun x => x.start).getD MIDNIGHT_00
        if 1440 ≤ end_time.mins_from_midnight then none
        else
          let e := min end_dt (st2.curr_date * 1440 + end_time.mins_from_midnight)
          match E.approx with
          | some a =>
            if e - s > a then some (some (⟨s, DATE_END_dt, tr.kind, tr.comments⟩, st2))
            else some (some (⟨s, e, tr.kind, tr.comments⟩, st2))
          | none => some (some (⟨s, e, tr.kind, tr.comments⟩, st2))

/-- The full output stream of a `TimeDomainIterator`. -/
def tdi_run (E : TDIEnv) (end_dt : Int) : Nat → TDIState → Option (List DateTimeRange)
  | 0, _ => none
  | fuel + 1, st =>
    match tdi_next E end_dt fuel st with
    | none => none
    | some none => some []
    | some (some (dtr, st2)) =>
      match tdi_run E end_dt fuel st2 with
      | none => none
      | some rest => some (dtr :: rest)

/-- `OpeningHours.iter_range_naive`: clamp the window at `DATE_END`, run the
iterator, keep outputs starting before the window's end, clamp each output
into the window. -/
def iter_range_naive (E : TDIEnv) (date_from date_to : Int) (fuel : Nat) :
    Option (List DateTimeRange) :=
  let d_from := min DATE_END_dt date_from
  let d_to := min DATE_END_dt date_to
  match tdi_init E d_from d_to with
  | none => none
  | some st =>
    match tdi_run E d_to fuel st with
    | none => none
    | some outs =>
      some ((outs.takeWhile fun dtr => decide (dtr.start < d_to)).map
        fun dtr => ⟨max dtr.start d_from, min dtr.«end» d_to, dtr.kind, dtr.comments⟩)

/-- The iterator environment of an actual `OpeningHours` object: iterating a
`Schedule` runs `ScheduleIterator`, so `stream` composes `schedule_at` with
the iterator's stream. -/
def exprTDIEnv (expr : OpeningHoursExpression) (ctx : Context) : TDIEnv :=
  ⟨fun d => (OpeningHours_schedule_at expr ctx d).map scheduleIterate,
   fun d => OpeningHours_next_change_hint expr ctx d,
   ctx.approx_bound_interval_size⟩

/-- The expression `10:00-18:00` (one rule: empty day selector, fixed time
span, kind `open`). -/
def c2expr : OpeningHoursExpression :=
  ⟨[⟨{}, mkTimeSelector [⟨TimeUnion.fixed ⟨10, 0⟩, TimeUnion.fixed ⟨18, 0⟩, false, none⟩],
    RuleKind.OPEN, RuleOperator.NORMAL, []⟩]⟩

/-! ### Specification predicates for the time-domain iterator -/

/-- The day streams the iterator consumes (outputs of `ScheduleIterator`):
non-negative starts before 24:00, positive length, contiguous, alternating
kinds. -/
def tdiStreamOK (l : List TimeRange) : Prop :=
  (∀ tr ∈ l, 0 ≤ tr.start.mins_from_midnight ∧ tr.start.mins_from_midnight < 1440 ∧
    tr.start.mins_from_midnight < tr.«end».mins_from_midnight) ∧
  List.Chain' (fun a b => b.start = a.«end») l ∧
  List.Chain' (fun a b => a.kind ≠ b.kind) l

/-- Environment assumptions of the amended claim C2: default interval bound
(`None`) and well-formed day streams. -/
def TDIEnvOK (E : TDIEnv) : Prop :=
  E.approx = none ∧ ∀ d l, E.stream d = some l → tdiStreamOK l

/-- The iterator-state invariant: the remaining suffix is well-formed. -/
def TDIInv (st : TDIState) : Prop := tdiStreamOK st.curr

/-- The absolute position the next output would start at (date plus the
head's start, or midnight when the stream is exhausted). -/
def endPos (st : TDIState) : Int :=
  st.curr_date * 1440 + ((st.curr.head?.map fun tr => tr.start.mins_from_midnight).getD 0)

/-- A concrete iterator environment: a constant all-day open schedule, a
hint that always defers to the next day, and no interval bound. -/
def trivTDIEnv : TDIEnv :=
  ⟨fun _ => some [⟨⟨0, 0⟩, ⟨24, 0⟩, RuleKind.OPEN, []⟩], fun _ => some none, none⟩

/-! ## Printing (`model/__init__.py`) and the parser's separators -/

/-- `RuleKind.__str__` (the enum name, lowercased). -/
def RuleKind.py_str : RuleKind → String
  | .OPEN => "open"
  | .CLOSED => "closed"
  | .UNKNOWN => "unknown"

/-- `RuleOperator._separator`. -/
def RuleOperator._separator : RuleOperator → String
  | .NORMAL => "; "
  | .ADDITIONAL => ", "
  | .FALLBACK => " | "

/-- `RuleSequence.__str__`, restricted to rules taking the `24/7` branch
(`is_constant()`); other rules print their day/time selectors, which this
development does not need (`none`).  In the constant branch `is_empty` is
`False`, a non-open kind is appended after a space, and comments are joined
with `", "` and appended verbatim — without quotes. -/
def RuleSequence.py_str (rs : RuleSequence) : Option String :=
  if rs.is_constant then
    let res := "24/7"
    let res := if rs.kind ≠ RuleKind.OPEN then res ++ " " ++ rs.kind.py_str else res
    let res := if ¬rs.comments.isEmpty then
      res ++ " " ++ String.intercalate ", " rs.comments else res
    some res
  else none

/-- `OpeningHoursExpression.__str__`: `"closed"` for no rules, else the
rules joined by each non-first rule's operator separator. -/
def OpeningHoursExpression.py_str (e : OpeningHoursExpression) : Option String :=
  match e.rules with
  | [] => some "closed"
  | r0 :: rest =>
    match r0.py_str with
    | none => none
    | some s0 =>
      rest.foldlM (fun acc r =>
        match r.py_str with
        | none => none
        | some sr => some (acc ++ r.operator._separator ++ sr)) s0

/-- Modelled from the spec: the rule separators the grammar accepts
(`"; "` → NORMAL, `", "` → ADDITIONAL, `" || "` → FALLBACK); the grammar
file `time_domain.lark` is not part of the sources, and no production
accepts a single `" | "`. -/
def accepted_separators : List String := ["; ", ", ", " || "]

/-- The expression parsed from `24/7 || closed`: a constant open rule, then
a constant closed rule carried by the FALLBACK operator. -/
def c6expr : OpeningHoursExpression :=
  ⟨[⟨{}, mkTimeSelector [], RuleKind.OPEN, RuleOperator.NORMAL, []⟩,
    ⟨{}, mkTimeSelector [], RuleKind.CLOSED, RuleOperator.FALLBACK, []⟩]⟩

/-- The expression parsed from `24/7 unknown "boo"`. -/
def c6expr2 : OpeningHoursExpression :=
  ⟨[⟨{}, mkTimeSelector [], RuleKind.UNKNOWN, RuleOperator.NORMAL, ["boo"]⟩]⟩

end Osm

-- ======================================================================
-- THEOREMS
-- ======================================================================

namespace Osm

set_option maxRecDepth 10000 in
/-- Helper: day and month bounds of `ord2ymdAux` over its whole input range. -/
theorem ord2ymdAux_bounds : ∀ n : Fin 365, ∀ leap : Bool,
    1 ≤ (ord2ymdAux n.val leap).2 ∧ (ord2ymdAux n.val leap).2 ≤ 31 ∧
    1 ≤ (ord2ymdAux n.val leap).1 ∧ (ord2ymdAux n.val leap).1 ≤ 12 := by decide

/-- Helper: the previous bounds, stated over `Int` inputs. -/
theorem ord2ymdAux_bounds_int (n : Int) (h0 : 0 ≤ n) (h1 : n < 365) (leap : Bool) :
    1 ≤ (ord2ymdAux n leap).2 ∧ (ord2ymdAux n leap).2 ≤ 31 ∧
    1 ≤ (ord2ymdAux n leap).1 ∧ (ord2ymdAux n leap).1 ≤ 12 := by
  have hfin : n.toNat < 365 := by omega
  have hc : ((n.toNat : Nat) : Int) = n := by omega
  have h := ord2ymdAux_bounds ⟨n.toNat, hfin⟩ leap
  rwa [show ((⟨n.toNat, hfin⟩ : Fin 365).val : Int) = n from hc] at h

/-- The day of an `ord2ymd` result is between 1 and 31, and the month between
1 and 12, for every ordinal. -/
theorem ord2ymd_day_bounds (z : Int) :
    1 ≤ (ord2ymd z).day ∧ (ord2ymd z).day ≤ 31 ∧
    1 ≤ (ord2ymd z).month ∧ (ord2ymd z).month ≤ 12 := by
  unfold ord2ymd
  dsimp only
  by_cases hspec :
      (z - 1) % 146097 % 36524 % 1461 / 365 = 4 ∨ (z - 1) % 146097 / 36524 = 4
  · rw [if_pos hspec]
    norm_num
  · rw [if_neg hspec]
    have h0 : (0 : Int) ≤ (z - 1) % 146097 % 36524 % 1461 % 365 := by omega
    have h1 : (z - 1) % 146097 % 36524 % 1461 % 365 < 365 := by omega
    have h := ord2ymdAux_bounds_int ((z - 1) % 146097 % 36524 % 1461 % 365) h0 h1
      (decide ((z - 1) % 146097 % 36524 % 1461 / 365 = 3 ∧
        ((z - 1) % 146097 % 36524 / 1461 ≠ 24 ∨ (z - 1) % 146097 / 36524 = 3)))
    rcases haux : ord2ymdAux ((z - 1) % 146097 % 36524 % 1461 % 365)
      (decide ((z - 1) % 146097 % 36524 % 1461 / 365 = 3 ∧
        ((z - 1) % 146097 % 36524 / 1461 ≠ 24 ∨ (z - 1) % 146097 / 36524 = 3))) with ⟨m, dy⟩
    rw [haux] at h
    simpa [haux] using h

/-- Helper: `days_in_month` is between 28 and 31 for months 1..12. -/
theorem days_in_month_bounds (y m : Int) (h1 : 1 ≤ m) (h2 : m ≤ 12) :
    28 ≤ days_in_month y m ∧ days_in_month y m ≤ 31 := by
  unfold days_in_month
  by_cases h : m = 2 ∧ is_leap y = true
  · rw [if_pos h]
    exact ⟨by norm_num, by norm_num⟩
  · rw [if_neg h]
    interval_cases m <;> decide

/-- Helper: truncating division by 7 of a value in `[-6, 34]` lands in
`[0, 4]`. -/
theorem pyIntDiv7_bounds (x : Int) (h1 : -6 ≤ x) (h2 : x ≤ 34) :
    0 ≤ pyIntDiv x 7 ∧ pyIntDiv x 7 ≤ 4 := by
  interval_cases x <;> decide

/-- Helper: the all-ones 5-bit field answers `true` at indices 0..4. -/
theorem allSetBitfield_getI (i : Int) (h1 : 0 ≤ i) (h2 : i ≤ 4) :
    allSetBitfield.getI i = true := by
  interval_cases i <;> decide

/-- Helper: `weekdayOfOrd` is in `[0, 6]`. -/
theorem weekdayOfOrd_bounds (z : Int) : 0 ≤ weekdayOfOrd z ∧ weekdayOfOrd z ≤ 6 := by
  unfold weekdayOfOrd
  omega

/-- Helper: the nth-position guard of `WeekDayRange.filter_nonwrap` is
satisfied by the all-ones bitfields, so the filter reduces to the weekday
test. -/
theorem filter_nonwrap_allSet (s e offset date : Int) :
    WeekDayRange.filter_nonwrap ⟨s, e, offset, allSetBitfield, allSetBitfield⟩ date =
      wrapping_contains s e (weekdayOfOrd (date - offset)) := by
  have hday := ord2ymd_day_bounds (date - offset)
  have hmlen := days_in_month_bounds (ord2ymd (date - offset)).year
    (ord2ymd (date - offset)).month hday.2.2.1 hday.2.2.2
  have hpos1 := pyIntDiv7_bounds ((ord2ymd (date - offset)).day - 1) (by omega) (by omega)
  have hpos2 := pyIntDiv7_bounds
    (days_in_month (ord2ymd (date - offset)).year (ord2ymd (date - offset)).month -
      (ord2ymd (date - offset)).day) (by omega) (by omega)
  have hg1 := allSetBitfield_getI (pyIntDiv ((ord2ymd (date - offset)).day - 1) 7)
    hpos1.1 hpos1.2
  have hg2 := allSetBitfield_getI
    (pyIntDiv (days_in_month (ord2ymd (date - offset)).year (ord2ymd (date - offset)).month -
      (ord2ymd (date - offset)).day) 7) hpos2.1 hpos2.2
  simp only [WeekDayRange.filter_nonwrap]
  rw [hg1, hg2]
  simp

/-- C9 counterexample: a `WeekDayRange` whose two bitfields are both empty
matches no date at all — `Mo-Su` with empty bitfields rejects Monday
2020-06-01 even though its weekday is in range.  (The defaulting to "all
occurrences" happens in the parser, `build_weekday_range`, not in
`WeekDayRange.filter`.) -/
theorem C9_empty_bitfields_match_nothing :
    (WeekDayRange.mk Weekday.Mo Weekday.Su 0 (Bitfield.mkEmpty 5)
        (Bitfield.mkEmpty 5)).filter (ymd2ord 2020 6 1) defaultContext = false ∧
      wrapping_contains Weekday.Mo Weekday.Su (weekdayOfOrd (ymd2ord 2020 6 1)) = true := by
  constructor
  · decide
  · decide

/-- C9 (amended): the parser's `build_weekday_range` replaces two empty
bitfields by all-ones bitfields (`normalize_nth`), and a `WeekDayRange`
carrying all-ones bitfields (with genuine `Weekday` bounds `Mo..Su`) matches
exactly the dates whose offset-adjusted weekday lies in the (possibly
wrapping) weekday range; a `WeekDayRange` whose bitfields are left empty
matches nothing. -/
theorem C9_all_set_bitfields (start «end» offset date : Int) (ctx : Context)
    (hstart : 0 ≤ start ∧ start ≤ 6) (hend : 0 ≤ «end» ∧ «end» ≤ 6) :
    (WeekDayRange.mk start «end» offset allSetBitfield allSetBitfield).filter date ctx =
        wrapping_contains start «end» (weekdayOfOrd (date - offset)) ∧
      normalize_nth (Bitfield.mkEmpty 5) (Bitfield.mkEmpty 5) =
        (allSetBitfield, allSetBitfield) := by
  refine ⟨?_, by decide⟩
  unfold WeekDayRange.filter
  dsimp only
  by_cases hw : start > «end»
  · rw [if_pos hw]
    rw [filter_nonwrap_allSet, filter_nonwrap_allSet]
    have hwd := weekdayOfOrd_bounds (date - offset)
    rw [Bool.eq_iff_iff]
    simp only [Bool.or_eq_true, decide_eq_true_eq]
    unfold wrapping_contains Weekday.Su Weekday.Mo
    split_ifs <;> simp only [decide_eq_true_eq] <;> omega
  · rw [if_neg hw]
    exact filter_nonwrap_allSet start «end» offset date

/-- C9 witness: a wrapping `Sa-Tu` range with all-ones bitfields and offset 2
applied at Monday 2020-06-01 (offset-adjusted weekday Saturday, in range). -/
theorem C9_all_set_bitfields_witness :
    (WeekDayRange.mk Weekday.Sa Weekday.Tu 2 allSetBitfield allSetBitfield).filter
        (ymd2ord 2020 6 1) defaultContext =
        wrapping_contains Weekday.Sa Weekday.Tu (weekdayOfOrd (ymd2ord 2020 6 1 - 2)) ∧
      normalize_nth (Bitfield.mkEmpty 5) (Bitfield.mkEmpty 5) =
        (allSetBitfield, allSetBitfield) :=
  C9_all_set_bitfields Weekday.Sa Weekday.Tu 2 (ymd2ord 2020 6 1) defaultContext
    (by decide) (by decide)

/-- C1: `HolidayRange.next_change_hint` with a positive offset, on a date
whose offset-adjusted date is a holiday, returns `d - offset + 1` — a date
*before* `d` (for offset 5) that is not `DATE_ZERO`: with `2020-07-14` as the
only `PH`, the selector `PH +5 days` filters `2020-07-19` as a match but
hints `2020-07-15 < 2020-07-19`.  This violates the monotone-hint contract
that the claim states (and that `TimeDomainIterator` asserts: a propagated
hint like this fires `assert next_change_hint > self.curr_date`). -/
theorem C1_holiday_hint_not_monotone :
    (HolidayRange.mk HolidayKind.PH 5).filter (ymd2ord 2020 7 19)
        (calendarHolidaysContext [ymd2ord 2020 7 14]) = true ∧
      (HolidayRange.mk HolidayKind.PH 5).next_change_hint (ymd2ord 2020 7 19)
        (calendarHolidaysContext [ymd2ord 2020 7 14]) = some (ymd2ord 2020 7 15) ∧
      ymd2ord 2020 7 15 < ymd2ord 2020 7 19 ∧
      ymd2ord 2020 7 15 ≠ DATE_ZERO_ord := by
  refine ⟨by decide, by decide, by decide, by decide⟩

/-- C4 counterexample: the claim's conditions are inverted relative to the
code.  On the expression `2020-2030` (which *matches* 2025-06-15 and has a
*full-day* time selector) the claim prescribes `d+1 = 2025-06-16`, but
`_next_change_hint` takes the day-selector hint `2031-01-01` — the code uses
the day-selector hint when the time-selector is full-day or the rule does not
match, and `d+1` only when the rule matches with a non-full-day selector. -/
theorem C4_claim_conditions_inverted :
    OpeningHours_next_change_hint c4expr defaultContext (ymd2ord 2025 6 15) =
        some (some (ymd2ord 2031 1 1)) ∧
      claim4_next_change_hint c4expr defaultContext (ymd2ord 2025 6 15) =
        some (some (ymd2ord 2025 6 16)) ∧
      (ymd2ord 2031 1 1 : Int) ≠ ymd2ord 2025 6 16 := by
  refine ⟨by decide, by decide, by decide⟩

/-- C4 (amended): `OpeningHours._next_change_hint` coincides, on every
expression, context and date, with the amended description: `DATE_START` for
dates before `DATE_START`; `DATE_END` when the expression is trivially
constant; otherwise the minimum over rules of (day-selector hint when the
rule's time-selector is immutably full-day or the rule does not match today,
else `d+1`, with a failed `d+1` becoming `DATE_ZERO`), returning `None` when
that minimum is `DATE_ZERO`. -/
theorem C4_hint_matches_amended_description (expr : OpeningHoursExpression)
    (ctx : Context) (date : Int) :
    OpeningHours_next_change_hint expr ctx date = spec4_next_change_hint expr ctx date := by
  unfold OpeningHours_next_change_hint spec4_next_change_hint rule_hint_date
  by_cases h1 : date < DATE_START_ord
  · rw [if_pos h1, if_pos h1]
  · rw [if_neg h1, if_neg h1]
    by_cases h2 : expr.is_constant = true
    · rw [if_pos h2, if_pos h2]
    · rw [if_neg h2, if_neg h2]
      rcases hm : expr.rules.mapM (fun r =>
          if r.time_selector.is_immutable_full_day = true ∨
              ¬r.day_selector.filter date ctx = true then
            r.day_selector.next_change_hint date ctx
          else
            some ((next_day_opt date).getD DATE_ZERO_ord)) with _ | ds
      · rw [hm]
      · rw [hm]
        rcases ds with _ | ⟨x, xs⟩
        · rfl
        · show _ = (match (x :: xs).min? with
            | none => some none
            | some m => if m = DATE_ZERO_ord then some none else some (some m))
          rw [List.min?]
          have hfold : (x :: xs).foldl min (x :: xs).headI = xs.foldl min x := by
            simp [List.headI, List.foldl, min_self]
          simp only [hfold]

/-- Helper: for normalised times, structural equality is equality of
minutes-from-midnight. -/
theorem etNorm_eq_iff (a b : ExtendedTime) (ha : etNorm a) (hb : etNorm b) :
    a = b ↔ a.mins_from_midnight = b.mins_from_midnight := by
  rcases a with ⟨ah, am⟩
  rcases b with ⟨bh, bm⟩
  unfold etNorm at ha hb
  dsimp only at ha hb
  simp only [ExtendedTime.mins_from_midnight, ExtendedTime.mk.injEq]
  omega

/-- Helper: a normalised time has non-negative minutes-from-midnight, and it
is `⟨0,0⟩` exactly when its minutes-from-midnight are zero. -/
theorem etNorm_mins_nonneg (a : ExtendedTime) (ha : etNorm a) :
    0 ≤ a.mins_from_midnight ∧ (a = ⟨0, 0⟩ ↔ a.mins_from_midnight = 0) := by
  rcases a with ⟨ah, am⟩
  unfold etNorm at ha
  dsimp only at ha
  simp only [ExtendedTime.mins_from_midnight, ExtendedTime.mk.injEq]
  omega

/-- Helper: `lastEndD` of a cons. -/
theorem lastEndD_cons (t : ExtendedTime) (r : TimeRange) (rest : List TimeRange) :
    lastEndD t (r :: rest) = lastEndD r.«end» rest := by
  cases rest with
  | nil => rfl
  | cons a l =>
    unfold lastEndD
    rw [List.getLast?_cons_cons]
    cases h : (a :: l).getLast? with
    | none => simp at h
    | some q => rfl

/-- Helper: appending one range to a contiguous tiling. -/
theorem contiguousFrom_append (t : ExtendedTime) (l : List TimeRange) (x : TimeRange) :
    contiguousFrom t (l ++ [x]) ↔ contiguousFrom t l ∧ x.start = lastEndD t l := by
  induction l generalizing t with
  | nil => simp [contiguousFrom, lastEndD]
  | cons r rest ih =>
    show (r.start = t ∧ contiguousFrom r.«end» (rest ++ [x])) ↔ _
    rw [ih, lastEndD_cons]
    show _ ↔ (r.start = t ∧ contiguousFrom r.«end» rest) ∧ _
    tauto

/-- Helper: `lastEndD` after appending. -/
theorem lastEndD_append (t : ExtendedTime) (l : List TimeRange) (x : TimeRange) :
    lastEndD t (l ++ [x]) = x.«end» := by
  unfold lastEndD
  simp

/-- Helper: every point below the final end of a contiguous tiling lies in
one of its ranges. -/
theorem contiguousFrom_covers (t : ExtendedTime) (l : List TimeRange)
    (h : contiguousFrom t l) (x : Int) (hx1 : t.mins_from_midnight ≤ x)
    (hx2 : x < (lastEndD t l).mins_from_midnight) :
    ∃ r ∈ l, r.start.mins_from_midnight ≤ x ∧ x < r.«end».mins_from_midnight := by
  induction l generalizing t with
  | nil =>
    exfalso
    unfold lastEndD at hx2
    simp at hx2
    omega
  | cons r rest ih =>
    rcases h with ⟨h1, h2⟩
    by_cases hc : x < r.«end».mins_from_midnight
    · exact ⟨r, List.mem_cons_self r rest, by rw [h1]; exact hx1, hc⟩
    · rw [lastEndD_cons] at hx2
      rcases ih r.«end» h2 (by omega) hx2 with ⟨q, hq1, hq2⟩
      exact ⟨q, List.mem_cons_of_mem r hq1, hq2⟩

/-- Helper: `ExtendedTime.le` as a proposition on minutes. -/
theorem et_le_iff (a b : ExtendedTime) :
    ExtendedTime.le a b = true ↔ a.mins_from_midnight ≤ b.mins_from_midnight := by
  simp [ExtendedTime.le]

/-- Helper: `ExtendedTime.lt` as a proposition on minutes. -/
theorem et_lt_iff (a b : ExtendedTime) :
    ExtendedTime.lt a b = true ↔ a.mins_from_midnight < b.mins_from_midnight := by
  simp [ExtendedTime.lt]

theorem m24_mins : MIDNIGHT_24.mins_from_midnight = 1440 := by decide

/-- Helper: alternation of `out.reverse ++ [p]` from alternation of
`out.reverse` and the seam condition. -/
theorem alt_snoc (out : List TimeRange) (p : TimeRange)
    (halt : alternatingKinds out.reverse)
    (hseam : ∀ h ∈ out.head?, p.kind ≠ h.kind) :
    alternatingKinds (out.reverse ++ [p]) := by
  unfold alternatingKinds at *
  rw [List.chain'_append]
  refine ⟨halt, List.chain'_singleton p, ?_⟩
  intro x hx y hy
  rw [List.getLast?_reverse] at hx
  simp only [List.head?_cons, Option.mem_def, Option.some.injEq] at hy
  subst hy
  exact (hseam x hx).symm

/-- Invariant preservation for `si_restart` (emit the pending range, re-enter
`__next__` with `r` peeked). -/
theorem inv_restart (L : List TimeRange) (out : List TimeRange) (p r : TimeRange)
    (hchain : contiguousFrom MIDNIGHT_00 (out.reverse ++ [p]))
    (hout_wf : ∀ x ∈ out, x.start.mins_from_midnight < x.«end».mins_from_midnight)
    (hp_wf : p.start.mins_from_midnight < p.«end».mins_from_midnight)
    (hp_norm : etNorm p.start ∧ etNorm p.«end»)
    (halt : alternatingKinds out.reverse)
    (hseam : ∀ h ∈ out.head?, p.kind ≠ h.kind)
    (hends : ∀ x ∈ out, x.«end».mins_from_midnight < 1440)
    (hcover : ∀ x ∈ out.reverse ++ [p], x.kind ≠ RuleKind.CLOSED →
      ∀ t : Int, x.start.mins_from_midnight ≤ t → t < x.«end».mins_from_midnight →
        coveredBy L t)
    (hr_wf : trWF r) (hrL : r ∈ L)
    (hpr : p.«end».mins_from_midnight ≤ r.start.mins_from_midnight)
    (hphole : p.«end» ≠ r.start → p.kind ≠ RuleKind.CLOSED)
    (hkind : p.«end» = r.start → p.kind ≠ r.kind) :
    SIInv L r.«end».mins_from_midnight (si_restart p r out) := by
  obtain ⟨hrs_norm, hre_norm, hr_lt⟩ := hr_wf
  have haltp := alt_snoc out p halt hseam
  simp only [si_restart]
  split_ifs with h1 h2 h3 h4
  · -- stop: 1440 ≤ p.end
    rw [et_le_iff, m24_mins] at h1
    refine ⟨?_, ?_, ?_, ?_, ?_, ?_, ?_, ?_, ?_, ?_, ?_⟩
    · simpa using hchain
    · intro x hx
      rcases List.mem_cons.mp hx with rfl | hx2
      · exact hp_wf
      · exact hout_wf x hx2
    · intro q hq
      simp at hq
    · intro q hq
      simp at hq
    · simpa [alternatingKinds] using haltp
    · intro q hq
      simp at hq
    · intro _ h
      simp at h
    · intro _
      refine ⟨rfl, by simp, ?_, ?_⟩
      · intro h hh
        simp only [List.head?_cons, Option.mem_def, Option.some.injEq] at hh
        subst hh
        exact h1
      · intro x hx
        exact hends x hx
    · intro h
      simp at h
    · intro q hq
      simp at hq
    · intro x hx
      simpa using hcover x (by simpa using hx)
  · -- r starts exactly at p.end: consume r
    rw [et_le_iff, m24_mins] at h1
    refine ⟨?_, ?_, ?_, ?_, ?_, ?_, ?_, ?_, ?_, ?_, ?_⟩
    · show contiguousFrom MIDNIGHT_00 ((p :: out).reverse ++ [r])
      rw [List.reverse_cons, contiguousFrom_append]
      exact ⟨hchain, by rw [h2, lastEndD_append]⟩
    · intro x hx
      rcases List.mem_cons.mp hx with rfl | hx2
      · exact hp_wf
      · exact hout_wf x hx2
    · intro q hq
      rw [Option.mem_def, Option.some.injEq] at hq
      subst hq
      exact hr_lt
    · intro q hq
      rw [Option.mem_def, Option.some.injEq] at hq
      subst hq
      exact ⟨hrs_norm, hre_norm⟩
    · simpa [alternatingKinds] using haltp
    · intro q hq h hh
      rw [Option.mem_def, Option.some.injEq] at hq
      subst hq
      simp only [List.head?_cons, Option.mem_def, Option.some.injEq] at hh
      subst hh
      exact fun he => (hkind h2.symm) he.symm
    · intro h
      simp at h
    · intro h
      simp at h
    · intro _ x hx
      rcases List.mem_cons.mp hx with rfl | hx2
      · omega
      · exact hends x hx2
    · intro q hq
      rw [Option.mem_def, Option.some.injEq] at hq
      subst hq
      exact le_refl _
    · intro x hx hxk t ht1 ht2
      rw [List.reverse_cons] at hx
      rcases List.mem_append.mp hx with hx2 | hx3
      · exact hcover x (by simpa using hx2) hxk t ht1 ht2
      · simp only [Option.toList_some, List.mem_singleton] at hx3
        subst hx3
        exact ⟨x, hrL, ht1, ht2⟩
  · -- hole then merge with a CLOSED r
    rw [et_le_iff, m24_mins] at h1
    have hlt : p.«end».mins_from_midnight < r.start.mins_from_midnight := by
      rcases lt_or_eq_of_le hpr with h | h
      · exact h
      · exfalso
        exact h2 ((etNorm_eq_iff r.start p.«end» hrs_norm hp_norm.2).mpr h.symm)
    refine ⟨?_, ?_, ?_, ?_, ?_, ?_, ?_, ?_, ?_, ?_, ?_⟩
    · show contiguousFrom MIDNIGHT_00 ((p :: out).reverse ++ [_])
      rw [List.reverse_cons, contiguousFrom_append]
      exact ⟨hchain, by rw [lastEndD_append]⟩
    · intro x hx
      rcases List.mem_cons.mp hx with rfl | hx2
      · exact hp_wf
      · exact hout_wf x hx2
    · intro q hq
      rw [Option.mem_def, Option.some.injEq] at hq
      subst hq
      show p.«end».mins_from_midnight < r.«end».mins_from_midnight
      omega
    · intro q hq
      rw [Option.mem_def, Option.some.injEq] at hq
      subst hq
      exact ⟨hp_norm.2, hre_norm⟩
    · simpa [alternatingKinds] using haltp
    · intro q hq h hh
      rw [Option.mem_def, Option.some.injEq] at hq
      subst hq
      simp only [List.head?_cons, Option.mem_def, Option.some.injEq] at hh
      subst hh
      show RuleKind.CLOSED ≠ p.kind
      exact fun he => (hphole fun hpe => h2 hpe.symm) he.symm
    · intro h
      simp at h
    · intro h
      simp at h
    · intro _ x hx
      rcases List.mem_cons.mp hx with rfl | hx2
      · omega
      · exact hends x hx2
    · intro q hq
      rw [Option.mem_def, Option.some.injEq] at hq
      subst hq
      exact le_refl _
    · intro x hx hxk t ht1 ht2
      rw [List.reverse_cons] at hx
      rcases List.mem_append.mp hx with hx2 | hx3
      · exact hcover x (by simpa using hx2) hxk t ht1 ht2
      · simp only [Option.toList_some, List.mem_singleton] at hx3
        subst hx3
        exact absurd rfl hxk
  · -- hole emitted, then stop (r starts at or after 24:00)
    rw [et_le_iff, m24_mins] at h1 h4
    have hlt : p.«end».mins_from_midnight < r.start.mins_from_midnight := by
      rcases lt_or_eq_of_le hpr with h | h
      · exact h
      · exfalso
        exact h2 ((etNorm_eq_iff r.start p.«end» hrs_norm hp_norm.2).mpr h.symm)
    have hpk : p.kind ≠ RuleKind.CLOSED := hphole fun hpe => h2 hpe.symm
    refine ⟨?_, ?_, ?_, ?_, ?_, ?_, ?_, ?_, ?_, ?_, ?_⟩
    · show contiguousFrom MIDNIGHT_00 ((⟨p.«end», r.start, RuleKind.CLOSED, []⟩ :: p :: out).reverse ++ [])
      rw [List.append_nil, List.reverse_cons, List.reverse_cons, contiguousFrom_append]
      exact ⟨hchain, by rw [lastEndD_append]⟩
    · intro x hx
      rcases List.mem_cons.mp hx with rfl | hx2
      · exact hlt
      · rcases List.mem_cons.mp hx2 with rfl | hx3
        · exact hp_wf
        · exact hout_wf x hx3
    · intro q hq
      simp at hq
    · intro q hq
      simp at hq
    · show alternatingKinds ((⟨p.«end», r.start, RuleKind.CLOSED, []⟩ :: p :: out).reverse)
      rw [List.reverse_cons, List.reverse_cons]
      unfold alternatingKinds at *
      rw [List.chain'_append]
      refine ⟨haltp, List.chain'_singleton _, ?_⟩
      intro x hx y hy
      rw [List.getLast?_concat] at hx
      simp only [Option.mem_def, Option.some.injEq] at hx
      subst hx
      simp only [List.head?_cons, Option.mem_def, Option.some.injEq] at hy
      subst hy
      exact hpk
    · intro q hq
      simp at hq
    · intro _ h
      simp at h
    · intro _
      refine ⟨rfl, by simp, ?_, ?_⟩
      · intro h hh
        simp only [List.head?_cons, Option.mem_def, Option.some.injEq] at hh
        subst hh
        exact h4
      · intro x hx
        simp only [List.tail_cons] at hx
        rcases List.mem_cons.mp hx with rfl | hx2
        · omega
        · exact hends x hx2
    · intro h
      simp at h
    · intro q hq
      simp at hq
    · intro x hx hxk t ht1 ht2
      simp only [Option.toList_none, List.append_nil, List.reverse_cons] at hx
      rcases List.mem_append.mp hx with hx2 | hx3
      · rcases List.mem_append.mp hx2 with hx4 | hx5
        · exact hcover x (List.mem_append_left _ hx4) hxk t ht1 ht2
        · simp only [List.mem_singleton] at hx5
          subst hx5
          exact hcover x (by simp) hxk t ht1 ht2
      · simp only [List.mem_singleton] at hx3
        subst hx3
        exact absurd rfl hxk
  · -- hole emitted, r pending
    rw [et_le_iff, m24_mins] at h1 h4
    have hlt : p.«end».mins_from_midnight < r.start.mins_from_midnight := by
      rcases lt_or_eq_of_le hpr with h | h
      · exact h
      · exfalso
        exact h2 ((etNorm_eq_iff r.start p.«end» hrs_norm hp_norm.2).mpr h.symm)
    have hpk : p.kind ≠ RuleKind.CLOSED := hphole fun hpe => h2 hpe.symm
    refine ⟨?_, ?_, ?_, ?_, ?_, ?_, ?_, ?_, ?_, ?_, ?_⟩
    · show contiguousFrom MIDNIGHT_00
        ((⟨p.«end», r.start, RuleKind.CLOSED, []⟩ :: p :: out).reverse ++ [r])
      rw [List.reverse_cons, List.reverse_cons, contiguousFrom_append]
      refine ⟨?_, ?_⟩
      · rw [contiguousFrom_append]
        exact ⟨hchain, by rw [lastEndD_append]⟩
      · rw [lastEndD_append]
    · intro x hx
      rcases List.mem_cons.mp hx with rfl | hx2
      · exact hlt
      · rcases List.mem_cons.mp hx2 with rfl | hx3
        · exact hp_wf
        · exact hout_wf x hx3
    · intro q hq
      rw [Option.mem_def, Option.some.injEq] at hq
      subst hq
      exact hr_lt
    · intro q hq
      rw [Option.mem_def, Option.some.injEq] at hq
      subst hq
      exact ⟨hrs_norm, hre_norm⟩
    · show alternatingKinds ((⟨p.«end», r.start, RuleKind.CLOSED, []⟩ :: p :: out).reverse)
      rw [List.reverse_cons, List.reverse_cons]
      unfold alternatingKinds at *
      rw [List.chain'_append]
      refine ⟨haltp, List.chain'_singleton _, ?_⟩
      intro x hx y hy
      rw [List.getLast?_concat] at hx
      simp only [Option.mem_def, Option.some.injEq] at hx
      subst hx
      simp only [List.head?_cons, Option.mem_def, Option.some.injEq] at hy
      subst hy
      exact hpk
    · intro q hq h hh
      rw [Option.mem_def, Option.some.injEq] at hq
      subst hq
      simp only [List.head?_cons, Option.mem_def, Option.some.injEq] at hh
      subst hh
      exact fun he => h3 he.symm
    · intro h
      simp at h
    · intro h
      simp at h
    · intro _ x hx
      rcases List.mem_cons.mp hx with rfl | hx2
      · show r.start.mins_from_midnight < 1440
        omega
      · rcases List.mem_cons.mp hx2 with rfl | hx3
        · omega
        · exact hends x hx3
    · intro q hq
      rw [Option.mem_def, Option.some.injEq] at hq
      subst hq
      exact le_refl _
    · intro x hx hxk t ht1 ht2
      rw [List.reverse_cons, List.reverse_cons] at hx
      rcases List.mem_append.mp hx with hx2 | hx3
      · rcases List.mem_append.mp hx2 with hx4 | hx5
        · rcases List.mem_append.mp hx4 with hx6 | hx7
          · exact hcover x (List.mem_append_left _ hx6) hxk t ht1 ht2
          · simp only [List.mem_singleton] at hx7
            subst hx7
            exact hcover x (by simp) hxk t ht1 ht2
        · simp only [List.mem_singleton] at hx5
          subst hx5
          exact absurd rfl hxk
      · simp only [Option.toList_some, List.mem_singleton] at hx3
        subst hx3
        exact ⟨x, hrL, ht1, ht2⟩

/-- Invariant preservation for `si_kind_compare` (the pending range ends
exactly where the peeked range starts). -/
theorem inv_kind_compare (L : List TimeRange) (out : List TimeRange) (p r : TimeRange)
    (hchain : contiguousFrom MIDNIGHT_00 (out.reverse ++ [p]))
    (hout_wf : ∀ x ∈ out, x.start.mins_from_midnight < x.«end».mins_from_midnight)
    (hp_wf : p.start.mins_from_midnight < p.«end».mins_from_midnight)
    (hp_norm : etNorm p.start ∧ etNorm p.«end»)
    (halt : alternatingKinds out.reverse)
    (hseam : ∀ h ∈ out.head?, p.kind ≠ h.kind)
    (hends : ∀ x ∈ out, x.«end».mins_from_midnight < 1440)
    (hcover : ∀ x ∈ out.reverse ++ [p], x.kind ≠ RuleKind.CLOSED →
      ∀ t : Int, x.start.mins_from_midnight ≤ t → t < x.«end».mins_from_midnight →
        coveredBy L t)
    (hr_wf : trWF r) (hrL : r ∈ L)
    (heq : p.«end» = r.start) :
    SIInv L r.«end».mins_from_midnight (si_kind_compare p r out) := by
  obtain ⟨hrs_norm, hre_norm, hr_lt⟩ := hr_wf
  have heqm : p.«end».mins_from_midnight = r.start.mins_from_midnight :=
    congrArg ExtendedTime.mins_from_midnight heq
  unfold si_kind_compare
  split_ifs with hne
  · exact inv_restart L out p r hchain hout_wf hp_wf hp_norm halt hseam hends hcover
      ⟨hrs_norm, hre_norm, hr_lt⟩ hrL (le_of_eq heqm)
      (fun h => absurd heq h) (fun _ => hne)
  · rw [not_not] at hne
    refine ⟨?_, hout_wf, ?_, ?_, halt, ?_, ?_, ?_, ?_, ?_, ?_⟩
    · show contiguousFrom MIDNIGHT_00 (out.reverse ++ [_])
      rw [contiguousFrom_append] at hchain ⊢
      exact ⟨hchain.1, hchain.2⟩
    · intro q hq
      rw [Option.mem_def, Option.some.injEq] at hq
      subst hq
      show p.start.mins_from_midnight < r.«end».mins_from_midnight
      omega
    · intro q hq
      rw [Option.mem_def, Option.some.injEq] at hq
      subst hq
      exact ⟨hp_norm.1, hre_norm⟩
    · intro q hq h hh
      rw [Option.mem_def, Option.some.injEq] at hq
      subst hq
      exact hseam h hh
    · intro h
      simp at h
    · intro h
      simp at h
    · intro _ x hx
      exact hends x hx
    · intro q hq
      rw [Option.mem_def, Option.some.injEq] at hq
      subst hq
      exact le_refl _
    · intro x hx hxk t ht1 ht2
      rcases List.mem_append.mp hx with hx2 | hx3
      · exact hcover x (List.mem_append_left _ hx2) hxk t ht1 ht2
      · simp only [Option.toList_some, List.mem_singleton] at hx3
        subst hx3
        rcases lt_or_le t p.«end».mins_from_midnight with ht | ht
        · exact hcover p (List.mem_append_right _ (List.mem_singleton_self p))
            (fun hc => hxk hc) t ht1 ht
        · exact ⟨r, hrL, by omega, by simpa using ht2⟩

/-- Invariant preservation for one `while`-body iteration. -/
theorem inv_while_step (L : List TimeRange) (out : List TimeRange) (p r : TimeRange)
    (hchain : contiguousFrom MIDNIGHT_00 (out.reverse ++ [p]))
    (hout_wf : ∀ x ∈ out, x.start.mins_from_midnight < x.«end».mins_from_midnight)
    (hp_wf : p.start.mins_from_midnight < p.«end».mins_from_midnight)
    (hp_norm : etNorm p.start ∧ etNorm p.«end»)
    (halt : alternatingKinds out.reverse)
    (hseam : ∀ h ∈ out.head?, p.kind ≠ h.kind)
    (hends : ∀ x ∈ out, x.«end».mins_from_midnight < 1440)
    (hcover : ∀ x ∈ out.reverse ++ [p], x.kind ≠ RuleKind.CLOSED →
      ∀ t : Int, x.start.mins_from_midnight ≤ t → t < x.«end».mins_from_midnight →
        coveredBy L t)
    (hr_wf : trWF r) (hrL : r ∈ L)
    (hpr : p.«end».mins_from_midnight ≤ r.start.mins_from_midnight) :
    SIInv L r.«end».mins_from_midnight (si_while_step p r out) := by
  obtain ⟨hrs_norm, hre_norm, hr_lt⟩ := hr_wf
  unfold si_while_step
  split_ifs with h1 h2
  · -- gap before r, pending CLOSED: extend it to r.start then compare kinds
    rw [et_lt_iff] at h1
    refine inv_kind_compare L out ⟨p.start, r.start, p.kind, p.comments⟩ r ?_ hout_wf
      ?_ ?_ halt ?_ hends ?_ ⟨hrs_norm, hre_norm, hr_lt⟩ hrL rfl
    · rw [contiguousFrom_append] at hchain ⊢
      exact ⟨hchain.1, hchain.2⟩
    · show p.start.mins_from_midnight < r.start.mins_from_midnight
      omega
    · exact ⟨hp_norm.1, hrs_norm⟩
    · exact hseam
    · intro x hx hxk t ht1 ht2
      rcases List.mem_append.mp hx with hx2 | hx3
      · exact hcover x (List.mem_append_left _ hx2) hxk t ht1 ht2
      · simp only [List.mem_singleton] at hx3
        subst hx3
        exact absurd h2 hxk
  · -- gap before r, pending non-CLOSED: yield it and restart
    rw [et_lt_iff] at h1
    exact inv_restart L out p r hchain hout_wf hp_wf hp_norm halt hseam hends hcover
      ⟨hrs_norm, hre_norm, hr_lt⟩ hrL (le_of_lt h1)
      (fun _ => h2)
      (fun h => False.elim (by rw [h] at h1; exact lt_irrefl _ h1))
  · -- no gap: p.end = r.start (by normalisation), compare kinds
    rw [et_lt_iff, not_lt] at h1
    have heq : p.«end» = r.start :=
      (etNorm_eq_iff p.«end» r.start hp_norm.2 hrs_norm).mpr (le_antisymm hpr h1)
    exact inv_kind_compare L out p r hchain hout_wf hp_wf hp_norm halt hseam hends
      hcover ⟨hrs_norm, hre_norm, hr_lt⟩ hrL heq

/-- `MIDNIGHT_00` is normalised. -/
theorem m00_norm : etNorm MIDNIGHT_00 := by
  unfold etNorm
  exact ⟨by decide, by decide, by decide⟩

/-- Invariant establishment for `si_start` on the initial empty state. -/
theorem inv_start (L : List TimeRange) (r : TimeRange)
    (hr_wf : trWF r) (hrL : r ∈ L) :
    SIInv L r.«end».mins_from_midnight (si_start r []) := by
  obtain ⟨hrs_norm, hre_norm, hr_lt⟩ := hr_wf
  have hs0 : 0 ≤ r.start.mins_from_midnight := (etNorm_mins_nonneg r.start hrs_norm).1
  show SIInv L r.«end».mins_from_midnight
    (if ExtendedTime.le MIDNIGHT_24 MIDNIGHT_00 then ⟨[], none, true⟩
     else if r.start = MIDNIGHT_00 then ⟨[], some r, false⟩
     else si_while_step ⟨MIDNIGHT_00, r.start, RuleKind.CLOSED, []⟩ r [])
  split_ifs with h1 h2
  · rw [et_le_iff] at h1
    exact absurd h1 (by decide)
  · refine ⟨?_, ?_, ?_, ?_, ?_, ?_, ?_, ?_, ?_, ?_, ?_⟩
    · exact ⟨h2, trivial⟩
    · intro x hx
      simp at hx
    · intro q hq
      rw [Option.mem_def, Option.some.injEq] at hq
      subst hq
      exact hr_lt
    · intro q hq
      rw [Option.mem_def, Option.some.injEq] at hq
      subst hq
      exact ⟨hrs_norm, hre_norm⟩
    · exact List.chain'_nil
    · intro q hq h hh
      simp at hh
    · intro h
      simp at h
    · intro h
      simp at h
    · intro _ x hx
      simp at hx
    · intro q hq
      rw [Option.mem_def, Option.some.injEq] at hq
      subst hq
      exact le_refl _
    · intro x hx hxk t ht1 ht2
      simp only [List.reverse_nil, List.nil_append, Option.toList_some,
        List.mem_singleton] at hx
      subst hx
      exact ⟨x, hrL, ht1, ht2⟩
  · have hs_pos : 0 < r.start.mins_from_midnight := by
      rcases lt_or_eq_of_le hs0 with h | h
      · exact h
      · exfalso
        exact h2 ((etNorm_eq_iff r.start MIDNIGHT_00 hrs_norm m00_norm).mpr h.symm)
    refine inv_while_step L [] ⟨MIDNIGHT_00, r.start, RuleKind.CLOSED, []⟩ r
      ⟨rfl, trivial⟩ ?_ hs_pos ⟨m00_norm, hrs_norm⟩ List.chain'_nil ?_ ?_ ?_
      ⟨hrs_norm, hre_norm, hr_lt⟩ hrL (le_refl _)
    · intro x hx
      simp at hx
    · intro h hh
      simp at hh
    · intro x hx
      simp at hx
    · intro x hx hxk t ht1 ht2
      simp only [List.reverse_nil, List.nil_append, List.mem_singleton] at hx
      subst hx
      exact absurd rfl hxk

/-- Invariant preservation for one `foldl` step of the iterator. -/
theorem inv_step (L : List TimeRange) (B : Int) (acc : SIAcc) (r : TimeRange)
    (hinv : SIInv L B acc) (hr_wf : trWF r) (hrL : r ∈ L)
    (hB : B ≤ r.start.mins_from_midnight) :
    SIInv L r.«end».mins_from_midnight (si_step acc r) := by
  obtain ⟨out, pend, st⟩ := acc
  unfold si_step
  cases st with
  | true =>
    simp only [if_true]
    obtain ⟨hnone, hne, hhead, htail⟩ := hinv.stoppedInv rfl
    refine ⟨hinv.chain, hinv.out_wf, hinv.pend_wf, hinv.pend_norm, hinv.alt,
      hinv.seam, ?_, hinv.stoppedInv, ?_, ?_, hinv.cover⟩
    · intro _ h
      simp at h
    · intro h
      simp at h
    · intro q hq
      rw [hnone] at hq
      simp at hq
  | false =>
    simp only [if_false, Bool.false_eq_true]
    cases pend with
    | none =>
      have hout : out = [] := hinv.noneEmpty rfl rfl
      subst hout
      exact inv_start L r hr_wf hrL
    | some p =>
      have hchain : contiguousFrom MIDNIGHT_00 (out.reverse ++ [p]) := hinv.chain
      have hpr : p.«end».mins_from_midnight ≤ r.start.mins_from_midnight :=
        le_trans (hinv.pendBound p rfl) hB
      exact inv_while_step L out p r hchain hinv.out_wf (hinv.pend_wf p rfl)
        (hinv.pend_norm p rfl) hinv.alt (hinv.seam p rfl)
        (hinv.endsLt rfl) hinv.cover hr_wf hrL hpr

/-- The invariant survives folding `si_step` over any sorted suffix of the
input list. -/
theorem inv_fold (L : List TimeRange) (hwf : ∀ r ∈ L, trWF r) :
    ∀ (suffix : List TimeRange) (acc : SIAcc) (B : Int),
    (∀ r ∈ suffix, r ∈ L) →
    List.Chain' (fun a b => a.«end».mins_from_midnight ≤ b.start.mins_from_midnight)
      suffix →
    (∀ h ∈ suffix.head?, B ≤ h.start.mins_from_midnight) →
    SIInv L B acc → ∃ C, SIInv L C (suffix.foldl si_step acc)
  | [], acc, B, _, _, _, hinv => ⟨B, hinv⟩
  | r :: rest, acc, B, hmem, hch, hB, hinv => by
    rw [List.foldl_cons]
    have hch' := List.chain'_cons'.mp hch
    have hrL : r ∈ L := hmem r (List.mem_cons_self r rest)
    exact inv_fold L hwf rest (si_step acc r) r.«end».mins_from_midnight
      (fun x hx => hmem x (List.mem_cons_of_mem r hx)) hch'.2 hch'.1
      (inv_step L B acc r hinv (hwf r hrL) hrL (hB r rfl))

/-- The invariant holds of the initial accumulator and hence of the full
fold over a well-formed schedule. -/
theorem scheduleIterate_inv (L : List TimeRange) (hwf : ScheduleWF L) :
    ∃ C, SIInv L C (L.foldl si_step ⟨[], none, false⟩) := by
  refine inv_fold L hwf.1 L ⟨[], none, false⟩ 0 (fun x hx => hx) hwf.2 ?_ ?_
  · intro h hh
    cases L with
    | nil => simp at hh
    | cons a l =>
      simp only [List.head?_cons, Option.mem_def, Option.some.injEq] at hh
      subst hh
      exact (etNorm_mins_nonneg a.start
        (hwf.1 a (List.mem_cons_self a l)).1).1
  · refine ⟨trivial, ?_, ?_, ?_, List.chain'_nil, ?_, fun _ _ => rfl, ?_, ?_, ?_, ?_⟩
    · intro x hx
      simp at hx
    · intro q hq
      simp at hq
    · intro q hq
      simp at hq
    · intro q hq
      simp at hq
    · intro h
      simp at h
    · intro _ x hx
      simp at hx
    · intro q hq
      simp at hq
    · intro x hx
      simp at hx

/-- `si_finalize` turns any accumulator satisfying the invariant into a
non-empty contiguous alternating tiling of the whole day whose non-closed
ranges are covered by the schedule's own ranges. -/
theorem finalize_props (L : List TimeRange) (B : Int) (acc : SIAcc)
    (hinv : SIInv L B acc) :
    si_finalize acc ≠ [] ∧
    contiguousFrom MIDNIGHT_00 (si_finalize acc) ∧
    (∀ x ∈ si_finalize acc,
      x.start.mins_from_midnight < x.«end».mins_from_midnight) ∧
    alternatingKinds (si_finalize acc) ∧
    1440 ≤ (lastEndD MIDNIGHT_00 (si_finalize acc)).mins_from_midnight ∧
    (∀ x ∈ si_finalize acc, x.kind ≠ RuleKind.CLOSED →
      ∀ t : Int, x.start.mins_from_midnight ≤ t → t < x.«end».mins_from_midnight →
        coveredBy L t) := by
  obtain ⟨out, pend, st⟩ := acc
  cases st with
  | true =>
    obtain ⟨hnone, hne, hhead, htail⟩ := hinv.stoppedInv rfl
    simp only at hnone
    subst hnone
    have hres : si_finalize ⟨out, none, true⟩ = out.reverse := rfl
    rw [hres]
    refine ⟨by simpa using hne, ?_, ?_, hinv.alt, ?_, ?_⟩
    · simpa using hinv.chain
    · intro x hx
      exact hinv.out_wf x (List.mem_reverse.mp hx)
    · unfold lastEndD
      rw [List.getLast?_reverse]
      cases out with
      | nil => exact absurd rfl hne
      | cons a t =>
        simp only [List.head?_cons]
        exact hhead a rfl
    · intro x hx hxk t ht1 ht2
      exact hinv.cover x (List.mem_append_left _ hx) hxk t ht1 ht2
  | false =>
    cases pend with
    | none =>
      have hout : out = [] := hinv.noneEmpty rfl rfl
      subst hout
      have hres : si_finalize ⟨[], none, false⟩ =
          [(⟨MIDNIGHT_00, MIDNIGHT_24, RuleKind.CLOSED, []⟩ : TimeRange)] := rfl
      rw [hres]
      refine ⟨by simp, ⟨rfl, trivial⟩, ?_, List.chain'_singleton _, by decide, ?_⟩
      · intro x hx
        simp only [List.mem_singleton] at hx
        subst hx
        decide
      · intro x hx hxk t ht1 ht2
        simp only [List.mem_singleton] at hx
        subst hx
        exact absurd rfl hxk
    | some p =>
      have hchain : contiguousFrom MIDNIGHT_00 (out.reverse ++ [p]) := hinv.chain
      have hp_wf := hinv.pend_wf p rfl
      have hp_norm := hinv.pend_norm p rfl
      have halt : alternatingKinds out.reverse := hinv.alt
      have hseam := hinv.seam p rfl
      have hendsOut := hinv.endsLt rfl
      have hcover : ∀ x ∈ out.reverse ++ [p], x.kind ≠ RuleKind.CLOSED →
          ∀ t : Int, x.start.mins_from_midnight ≤ t →
            t < x.«end».mins_from_midnight → coveredBy L t := hinv.cover
      have hps := (contiguousFrom_append MIDNIGHT_00 out.reverse p).mp hchain
      have hstart_lt : p.start.mins_from_midnight < 1440 := by
        rw [hps.2]
        cases out with
        | nil => decide
        | cons a t =>
          unfold lastEndD
          rw [List.getLast?_reverse]
          simp only [List.head?_cons]
          exact hendsOut a (List.mem_cons_self a t)
      simp only [si_finalize, Bool.false_eq_true, if_false]
      split_ifs with h2 h3
      · -- closed pending widened to 24:00
        rw [show ((⟨p.start, MIDNIGHT_24, p.kind, p.comments⟩ : TimeRange) :: out).reverse
            = out.reverse ++ [⟨p.start, MIDNIGHT_24, p.kind, p.comments⟩] from
            List.reverse_cons _ _]
        refine ⟨by simp, ?_, ?_, ?_, ?_, ?_⟩
        · rw [contiguousFrom_append]
          exact ⟨hps.1, hps.2⟩
        · intro x hx
          rcases List.mem_append.mp hx with hx2 | hx3
          · exact hinv.out_wf x (List.mem_reverse.mp hx2)
          · simp only [List.mem_singleton] at hx3
            subst hx3
            show p.start.mins_from_midnight < MIDNIGHT_24.mins_from_midnight
            rw [m24_mins]
            exact hstart_lt
        · exact alt_snoc out _ halt hseam
        · rw [lastEndD_append, m24_mins]
        · intro x hx hxk t ht1 ht2
          rcases List.mem_append.mp hx with hx2 | hx3
          · exact hcover x (List.mem_append_left _ hx2) hxk t ht1 ht2
          · simp only [List.mem_singleton] at hx3
            subst hx3
            exact absurd h2 hxk
      · -- non-closed pending already reaching 24:00
        rw [et_le_iff, m24_mins] at h3
        rw [List.reverse_cons]
        refine ⟨by simp, hchain, ?_, alt_snoc out p halt hseam, ?_, hcover⟩
        · intro x hx
          rcases List.mem_append.mp hx with hx2 | hx3
          · exact hinv.out_wf x (List.mem_reverse.mp hx2)
          · simp only [List.mem_singleton] at hx3
            subst hx3
            exact hp_wf
        · rw [lastEndD_append]
          exact h3
      · -- non-closed pending, final closed hole up to 24:00
        rw [et_le_iff, m24_mins, not_le] at h3
        rw [show ((⟨p.«end», MIDNIGHT_24, RuleKind.CLOSED, []⟩ : TimeRange) :: p ::
            out).reverse = (out.reverse ++ [p]) ++
            [⟨p.«end», MIDNIGHT_24, RuleKind.CLOSED, []⟩] by
          rw [List.reverse_cons, List.reverse_cons]]
        refine ⟨by simp, ?_, ?_, ?_, ?_, ?_⟩
        · rw [contiguousFrom_append]
          exact ⟨hchain, by rw [lastEndD_append]⟩
        · intro x hx
          rcases List.mem_append.mp hx with hx2 | hx3
          · rcases List.mem_append.mp hx2 with hx4 | hx5
            · exact hinv.out_wf x (List.mem_reverse.mp hx4)
            · simp only [List.mem_singleton] at hx5
              subst hx5
              exact hp_wf
          · simp only [List.mem_singleton] at hx3
            subst hx3
            show p.«end».mins_from_midnight < MIDNIGHT_24.mins_from_midnight
            rw [m24_mins]
            exact h3
        · unfold alternatingKinds at *
          rw [List.chain'_append]
          refine ⟨alt_snoc out p halt hseam, List.chain'_singleton _, ?_⟩
          intro x hx y hy
          rw [List.getLast?_concat] at hx
          simp only [Option.mem_def, Option.some.injEq] at hx
          subst hx
          simp only [List.head?_cons, Option.mem_def, Option.some.injEq] at hy
          subst hy
          exact h2
        · rw [lastEndD_append, m24_mins]
        · intro x hx hxk t ht1 ht2
          rcases List.mem_append.mp hx with hx2 | hx3
          · exact hcover x hx2 hxk t ht1 ht2
          · simp only [List.mem_singleton] at hx3
            subst hx3
            exact absurd rfl hxk

/-- The iterator on the empty schedule yields exactly the full closed day
(the repository's `test_iter_on_empty_schedule`). -/
example : scheduleIterate [] = [⟨MIDNIGHT_00, MIDNIGHT_24, RuleKind.CLOSED, []⟩] := by decide

/-- The repository's `test_iter_on_complex_schedule`, replayed through
`from_ranges`, `addition`/`insert` and the iterator. -/
example :
    (do
      let s1 ← Schedule.from_ranges [(⟨10, 0⟩, ⟨12, 0⟩), (⟨14, 0⟩, ⟨16, 0⟩)]
        RuleKind.OPEN ["Full availability"]
      let s2 ← Schedule.from_ranges [(⟨16, 0⟩, ⟨18, 0⟩)] RuleKind.UNKNOWN []
      let s3 ← Schedule.from_ranges [(⟨9, 0⟩, ⟨10, 0⟩)] RuleKind.CLOSED ["May take orders"]
      let s4 ← Schedule.from_ranges [(⟨22, 0⟩, ⟨24, 0⟩)] RuleKind.CLOSED []
      pure (scheduleIterate
        (Schedule.addition (Schedule.addition (Schedule.addition s1 s2) s3) s4))) =
    some [⟨⟨0, 0⟩, ⟨10, 0⟩, RuleKind.CLOSED, ["May take orders"]⟩,
      ⟨⟨10, 0⟩, ⟨12, 0⟩, RuleKind.OPEN, ["Full availability"]⟩,
      ⟨⟨12, 0⟩, ⟨14, 0⟩, RuleKind.CLOSED, []⟩,
      ⟨⟨14, 0⟩, ⟨16, 0⟩, RuleKind.OPEN, ["Full availability"]⟩,
      ⟨⟨16, 0⟩, ⟨18, 0⟩, RuleKind.UNKNOWN, []⟩,
      ⟨⟨18, 0⟩, ⟨24, 0⟩, RuleKind.CLOSED, []⟩] := by decide

/-- C3: `Schedule.from_ranges` coalesces with `sched_ranges.pop(i + i)`
instead of `pop(i + 1)`.  At `i = 0` the popped element is the (just
extended) range itself, so `[(01:00,03:00), (02:00,05:00)]` collapses to
`[(02:00,05:00)]` — the minutes `01:00-02:00` are silently dropped instead
of producing the coalesced `[(01:00,05:00)]`.  At `i = 2` the pop index
`4 > i + 1` can be out of range: on
`[(00:00,01:00),(02:00,03:00),(04:00,06:00),(05:00,08:00)]` the call raises
`IndexError` (modelled as `none`) instead of returning a schedule. -/
theorem C3_from_ranges_pop_bug :
    Schedule.from_ranges [(⟨1, 0⟩, ⟨3, 0⟩), (⟨2, 0⟩, ⟨5, 0⟩)] RuleKind.OPEN [] =
        some [⟨⟨2, 0⟩, ⟨5, 0⟩, RuleKind.OPEN, []⟩] ∧
      Schedule.from_ranges [(⟨0, 0⟩, ⟨1, 0⟩), (⟨2, 0⟩, ⟨3, 0⟩), (⟨4, 0⟩, ⟨6, 0⟩),
        (⟨5, 0⟩, ⟨8, 0⟩)] RuleKind.OPEN [] = none := by
  refine ⟨by decide, by decide⟩

/-- C5 counterexample: the schedule `[(23:00, 25:00, OPEN)]` (sorted,
disjoint, inside `[00:00, 48:00]`) iterates to
`[(00:00,23:00,CLOSED), (23:00,25:00,OPEN)]`: the final range is yielded
un-truncated, with `25:00 > 24:00`. -/
theorem C5_not_truncated_at_24 :
    scheduleIterate [⟨⟨23, 0⟩, ⟨25, 0⟩, RuleKind.OPEN, []⟩] =
        [⟨⟨0, 0⟩, ⟨23, 0⟩, RuleKind.CLOSED, []⟩, ⟨⟨23, 0⟩, ⟨25, 0⟩, RuleKind.OPEN, []⟩] ∧
      ExtendedTime.le (⟨25, 0⟩ : ExtendedTime) MIDNIGHT_24 = false := by
  refine ⟨by decide, by decide⟩

/-- C10: the claim says that after `b.set(i, v)` the call `b.get(i)` returns
`v`, including when `v = False` and bit `i` was already clear.  The code's
`set` uses `self.v ^= 1 << i` (xor) in the `False` branch, so clearing an
already-clear bit actually sets it: on an all-clear `Bitfield`, after
`set(0, False)` the call `get(0)` returns `True`. -/
theorem C10_set_false_on_clear_bit :
    (Bitfield.mkEmpty 5).get 0 = false ∧
      ((Bitfield.mkEmpty 5).set 0 false).get 0 = true := by decide

/-- C7: `VariableTime(DAWN, -150).as_naive` (the selector `(dawn-02:30)`) on
the default locale, whose dawn is `06:00`.  The computed time `03:30`
(210 minutes) is well inside the `00:00..48:00` domain, yet the code returns
`MIDNIGHT_00`, because `add_minutes_opt` range-checks the raw component
`minute + offset = -150` instead of the carried time.  The repository's own
test (`test_time_selector.py`, case `"(dawn-02:30)-(dusk+02:30)"`) expects
`03:30` here. -/
theorem C7_offset_clamps_inside_domain :
    (VariableTime.mk TimeEvent.DAWN (-150)).as_naive (ymd2ord 2020 6 1) defaultContext
        = MIDNIGHT_00 ∧
      (0 ≤ 6 * 60 - 150 ∧ 6 * 60 - 150 ≤ 48 * 60) ∧
      ExtendedTime.from_mins_from_midnight (6 * 60 - 150) = ⟨3, 30⟩ := by decide

/-- C8 counterexample: `TimeSpan.as_naive` lifts the end by 24h whenever
`start >= end`, not only when `end < start` as the claim states: the span
`10:00-10:00` (where `end < start` is false) resolves to `(10:00, 34:00)`. -/
theorem C8_equal_ends_also_lift :
    (TimeSpan.mk (TimeUnion.fixed ⟨10, 0⟩) (TimeUnion.fixed ⟨10, 0⟩) false none).as_naive
        (ymd2ord 2020 6 1) defaultContext = some (⟨10, 0⟩, ⟨34, 0⟩) ∧
      ExtendedTime.lt ⟨10, 0⟩ ⟨10, 0⟩ = false := by decide

/-- C8 (amended): for a `TimeSpan` with fixed start and end, `as_naive`
returns `(start, end)` with the end lifted by 24 hours exactly when the
source `end ≤ start`, and the result satisfies `start ≤ end` — provided the
resolution does not overflow (which is guaranteed whenever `end > start`, or
`end ≤ 24:00` and `start ≤ end + 24h`). -/
theorem C8_as_naive_fixed (s e : ExtendedTime) (d : Int) (ctx : Context)
    (oe : Bool) (rep : Option Duration)
    (hs : ExtendedTime.check s.hour s.minute = true)
    (he : ExtendedTime.check e.hour e.minute = true)
    (hdom : ExtendedTime.lt s e = true ∨
      (ExtendedTime.le e MIDNIGHT_24 = true ∧
        ExtendedTime.le s (ExtendedTime.add_hours e 24) = true)) :
    (TimeSpan.mk (TimeUnion.fixed s) (TimeUnion.fixed e) oe rep).as_naive d ctx =
        some (s, if ExtendedTime.le e s then ExtendedTime.add_hours e 24 else e) ∧
      ExtendedTime.le s (if ExtendedTime.le e s then ExtendedTime.add_hours e 24 else e)
        = true := by
  rcases s with ⟨sh, sm⟩
  rcases e with ⟨eh, em⟩
  simp only [ExtendedTime.check, ExtendedTime.le, ExtendedTime.lt, ExtendedTime.add_hours,
    ExtendedTime.mins_from_midnight, MIDNIGHT_24, Bool.and_eq_true, decide_eq_true_eq,
    Bool.not_eq_true', decide_eq_false_iff_not, not_or, not_and, not_lt] at hs he hdom
  simp only [TimeSpan.as_naive, TimeUnion.as_naive, ExtendedTime.le, ExtendedTime.lt,
    ExtendedTime.add_hours, ExtendedTime.add_hours_opt, ExtendedTime.is_out_of_range,
    ExtendedTime.mins_from_midnight, decide_eq_true_eq]
  by_cases hc : em + 60 * eh ≤ sm + 60 * sh
  · have hlift : em + 60 * eh ≤ 60 * 24 ∧ sm + 60 * sh ≤ em + 60 * (eh + 24) := by
      rcases hdom with h | ⟨h1, h2⟩
      · omega
      · omega
    have hoor : ¬(eh + 24 > 48 ∨ eh + 24 < 0 ∨ em > 59 ∨ em < 0 ∨ (eh + 24 = 48 ∧ em > 0)) := by
      omega
    simp only [hc, decide_True, if_true, hoor, decide_False, Bool.false_eq_true, if_false]
    have hle2 : sm + 60 * sh ≤ em + 60 * (eh + 24) := hlift.2
    simp only [hle2, decide_True, if_true, and_self, decide_eq_true_eq]
    all_goals first
    | trivial
    | exact ⟨rfl, hle2⟩
  · have hlt : sm + 60 * sh < em + 60 * eh := by omega
    have hle : sm + 60 * sh ≤ em + 60 * eh := le_of_lt hlt
    simp only [hc, decide_False, Bool.false_eq_true, if_false, hle, decide_True, if_true,
      decide_eq_true_eq]
    all_goals first
    | trivial
    | exact ⟨rfl, hle⟩

/-- C8 witness: the wrap law instance `23:00-01:00` resolving to
`(23:00, 25:00)` on a concrete date, obtained from `C8_as_naive_fixed`. -/
theorem C8_as_naive_fixed_witness :
    (TimeSpan.mk (TimeUnion.fixed ⟨23, 0⟩) (TimeUnion.fixed ⟨1, 0⟩) false none).as_naive
        (ymd2ord 2024 11 11) defaultContext = some (⟨23, 0⟩, ⟨25, 0⟩) :=
  ((C8_as_naive_fixed ⟨23, 0⟩ ⟨1, 0⟩ (ymd2ord 2024 11 11) defaultContext false none
      (by decide) (by decide) (Or.inr (by decide))).1).trans (by decide)

/-- C2 counterexample: for the parsed expression `10:00-18:00` under the
default context and the query window `[2020-06-01 18:00, 2020-06-01 20:00)`,
`iter_range` emits the degenerate interval `(18:00, 18:00, open)` followed by
`(18:00, 20:00, closed)`: the first two outputs have EQUAL starts, refuting
the claimed strict increase.  (The window's start sits on the inclusive end
of the open range — `contains_time` uses `start <= t <= end` — so the
iterator starts from the already-finished open range and the clamping
`max(start, from)` collapses it.) -/
theorem C2_first_output_degenerate :
    iter_range_naive (exprTDIEnv c2expr defaultContext)
        (ymd2ord 2020 6 1 * 1440 + 1080) (ymd2ord 2020 6 1 * 1440 + 1200) 20 =
      some [⟨ymd2ord 2020 6 1 * 1440 + 1080, ymd2ord 2020 6 1 * 1440 + 1080,
          RuleKind.OPEN, []⟩,
        ⟨ymd2ord 2020 6 1 * 1440 + 1080, ymd2ord 2020 6 1 * 1440 + 1200,
          RuleKind.CLOSED, []⟩] ∧
      (⟨ymd2ord 2020 6 1 * 1440 + 1080, ymd2ord 2020 6 1 * 1440 + 1080,
          RuleKind.OPEN, []⟩ : DateTimeRange).start =
        (⟨ymd2ord 2020 6 1 * 1440 + 1080, ymd2ord 2020 6 1 * 1440 + 1200,
          RuleKind.CLOSED, []⟩ : DateTimeRange).start := by
  refine ⟨by decide, rfl⟩

/-- Helper: the head surviving `dropWhile p` fails `p`. -/
theorem head_dropWhile_false {α : Type} (p : α → Bool) :
    ∀ (l : List α) (x : α), (l.dropWhile p).head? = some x → p x = false := by
  intro l
  induction l with
  | nil => intro x h; simp [List.dropWhile] at h
  | cons a t ih =>
    intro x h
    rw [List.dropWhile_cons] at h
    split_ifs at h with hp
    · exact ih x h
    · simp only [List.head?_cons, Option.some.injEq] at h
      subst h
      exact Bool.eq_false_iff.mpr hp

/-- Helper: `tdiStreamOK` restricts to suffixes. -/
theorem tdiStreamOK_suffix (l l' : List TimeRange) (h : tdiStreamOK l)
    (hs : l' <:+ l) : tdiStreamOK l' := by
  obtain ⟨pre, rfl⟩ := hs
  refine ⟨fun tr htr => h.1 tr (List.mem_append_right pre htr), ?_, ?_⟩
  · exact (List.chain'_append.mp h.2.1).2.1
  · exact (List.chain'_append.mp h.2.2).2.1

/-- Helper: the empty stream is well-formed. -/
theorem tdiStreamOK_nil : tdiStreamOK [] :=
  ⟨fun tr htr => absurd htr (List.not_mem_nil tr), List.chain'_nil, List.chain'_nil⟩

/-- `TimeDomainIterator.__init__`: the state is a well-formed suffix of the
day's stream positioned at a range containing the window's start time. -/
theorem tdi_init_spec (E : TDIEnv) (hE : TDIEnvOK E) (start_dt end_dt : Int)
    (st : TDIState) (hrun : tdi_init E start_dt end_dt = some st) :
    TDIInv st ∧ st.curr_date = start_dt / 1440 ∧
    (∀ tr ∈ st.curr.head?, tr.start.mins_from_midnight ≤ start_dt % 1440 ∧
      start_dt % 1440 ≤ tr.«end».mins_from_midnight) := by
  simp only [tdi_init] at hrun
  cases hcase : (if end_dt ≤ start_dt then some [] else E.stream (start_dt / 1440)) with
  | none => rw [hcase] at hrun; simp at hrun
  | some l =>
    rw [hcase] at hrun
    simp only [Option.some.injEq] at hrun
    subst hrun
    have hOK : tdiStreamOK l := by
      split_ifs at hcase with h
      · simp only [Option.some.injEq] at hcase
        rw [← hcase]
        exact tdiStreamOK_nil
      · exact hE.2 _ l hcase
    refine ⟨tdiStreamOK_suffix l _ hOK (List.dropWhile_suffix _), rfl, ?_⟩
    intro tr htr
    rw [Option.mem_def] at htr
    have hc := head_dropWhile_false _ l tr htr
    simp only [Bool.not_eq_false] at hc
    simpa [TimeRange.contains_time, and_comm] using hc

/-- `_consume_until_next_kind` preserves the state invariant, leaves the
stream positioned at a different kind (or exhausted), never moves backwards,
and moves past the whole consumed head range (capped at next midnight). -/
theorem tdi_consume_spec (E : TDIEnv) (hE : TDIEnvOK E) (end_dt : Int)
    (k : RuleKind) (sd : Int) :
    ∀ (fuel : Nat) (st st' : TDIState),
    TDIInv st →
    tdi_consume E end_dt k sd fuel st = some st' →
    TDIInv st' ∧
    (∀ tr' ∈ st'.curr.head?, tr'.kind ≠ k) ∧
    endPos st ≤ endPos st' ∧
    (∀ tr ∈ st.curr.head?, tr.kind = k →
      st.curr_date * 1440 + min tr.«end».mins_from_midnight 1440 ≤ endPos st') := by
  intro fuel
  induction fuel with
  | zero => intro st st' _ h; simp [tdi_consume] at h
  | succ n ih =>
    intro st st' hinv hrun
    obtain ⟨d, curr⟩ := st
    cases curr with
    | nil =>
      simp only [tdi_consume, Option.some.injEq] at hrun
      subst hrun
      exact ⟨hinv, by intro x hx; simp at hx, le_refl _, by intro x hx _; simp at hx⟩
    | cons tr rest =>
      simp only [tdi_consume, hE.1, Bool.false_eq_true, if_false] at hrun
      have htr_wf := hinv.1 tr (List.mem_cons_self tr rest)
      split_ifs at hrun with hk
      · -- head has a different kind: state unchanged
        simp only [Option.some.injEq] at hrun
        subst hrun
        refine ⟨hinv, ?_, le_refl _, ?_⟩
        · intro x hx
          simp only [List.head?_cons, Option.mem_def, Option.some.injEq] at hx
          subst hx
          exact hk
        · intro x hx hxk
          simp only [List.head?_cons, Option.mem_def, Option.some.injEq] at hx
          subst hx
          exact absurd hxk hk
      · rw [not_not] at hk
        cases rest with
        | cons b rest2 =>
          have hmid : TDIInv ⟨d, b :: rest2⟩ :=
            tdiStreamOK_suffix _ _ hinv ⟨[tr], rfl⟩
          obtain ⟨i1, i2, i3, i4⟩ := ih ⟨d, b :: rest2⟩ st' hmid hrun
          have hbs : b.start = tr.«end» := (List.chain'_cons.mp hinv.2.1).1
          have hbsm : b.start.mins_from_midnight = tr.«end».mins_from_midnight :=
            congrArg ExtendedTime.mins_from_midnight hbs
          have hmidPos : endPos (⟨d, b :: rest2⟩ : TDIState) =
              d * 1440 + tr.«end».mins_from_midnight := by
            simp [endPos, hbsm]
          refine ⟨i1, i2, ?_, ?_⟩
          · refine le_trans ?_ i3
            rw [hmidPos]
            show d * 1440 + tr.start.mins_from_midnight ≤ _
            omega
          · intro x hx _
            simp only [List.head?_cons, Option.mem_def, Option.some.injEq] at hx
            subst hx
            refine le_trans ?_ i3
            rw [hmidPos]
            show d * 1440 + min (tr.«end».mins_from_midnight) 1440 ≤ _
            have := min_le_left (tr.«end».mins_from_midnight) 1440
            omega
        | nil =>
          cases hh : E.hint d with
          | none => rw [hh] at hrun; simp at hrun
          | some h =>
            rw [hh] at hrun
            dsimp only at hrun
            cases hnd : h.orElse fun _ => next_day_opt d with
            | none => rw [hnd] at hrun; simp at hrun
            | some nd =>
              rw [hnd] at hrun
              dsimp only at hrun
              split_ifs at hrun with h1 h2
              · cases hs : E.stream nd with
                | none => rw [hs] at hrun; simp at hrun
                | some l =>
                  rw [hs] at hrun
                  have hlOK := hE.2 nd l hs
                  obtain ⟨i1, i2, i3, i4⟩ := ih ⟨nd, l⟩ st' hlOK hrun
                  have hnd' : d + 1 ≤ nd := by omega
                  have hl0 : (0 : Int) ≤
                      ((l.head?.map fun x => x.start.mins_from_midnight).getD 0) := by
                    cases hl : l with
                    | nil => simp
                    | cons x xs =>
                      simp only [List.head?_cons, Option.map_some, Option.getD_some]
                      exact (hlOK.1 x (by rw [hl]; exact List.mem_cons_self x xs)).1
                  have hmidPos : nd * 1440 ≤ endPos (⟨nd, l⟩ : TDIState) := by
                    simp only [endPos]
                    omega
                  refine ⟨i1, i2, ?_, ?_⟩
                  · refine le_trans ?_ i3
                    show d * 1440 + tr.start.mins_from_midnight ≤ _
                    omega
                  · intro x hx _
                    simp only [List.head?_cons, Option.mem_def, Option.some.injEq] at hx
                    subst hx
                    refine le_trans ?_ i3
                    show d * 1440 + min (tr.«end».mins_from_midnight) 1440 ≤ _
                    have := min_le_right (tr.«end».mins_from_midnight) 1440
                    omega
              · obtain ⟨i1, i2, i3, i4⟩ := ih ⟨nd, []⟩ st' tdiStreamOK_nil hrun
                have hnd' : d + 1 ≤ nd := by omega
                have hmidPos : endPos (⟨nd, ([] : List TimeRange)⟩ : TDIState) =
                    nd * 1440 := by simp [endPos]
                refine ⟨i1, i2, ?_, ?_⟩
                · refine le_trans ?_ i3
                  rw [hmidPos]
                  show d * 1440 + tr.start.mins_from_midnight ≤ _
                  omega
                · intro x hx _
                  simp only [List.head?_cons, Option.mem_def, Option.some.injEq] at hx
                  subst hx
                  refine le_trans ?_ i3
                  rw [hmidPos]
                  show d * 1440 + min (tr.«end».mins_from_midnight) 1440 ≤ _
                  have := min_le_right (tr.«end».mins_from_midnight) 1440
                  omega

/-- Helper: the `end_time` of `__next__` (head's start or `MIDNIGHT_00`)
measures exactly `endPos`. -/
theorem endPos_endTime (st : TDIState) :
    st.curr_date * 1440 +
      (((st.curr.head?.map fun x => x.start).getD MIDNIGHT_00).mins_from_midnight) =
    endPos st := by
  cases h : st.curr with
  | nil => simp [endPos, h]; decide
  | cons a t => simp [endPos, h]

/-- `TimeDomainIterator.__next__` on a successful yield: the output starts at
the current position with the head's kind, ends at the new position clamped
to the window's end, and strictly precedes the new position; the stream is
left on a different kind. -/
theorem tdi_next_spec (E : TDIEnv) (hE : TDIEnvOK E) (end_dt : Int) (fuel : Nat)
    (st st' : TDIState) (dtr : DateTimeRange) (hinv : TDIInv st)
    (hrun : tdi_next E end_dt fuel st = some (some (dtr, st'))) :
    TDIInv st' ∧
    dtr.start = endPos st ∧
    dtr.«end» = min end_dt (endPos st') ∧
    dtr.start < endPos st' ∧
    (∀ tr' ∈ st'.curr.head?, tr'.kind ≠ dtr.kind) ∧
    (∀ tr ∈ st.curr.head?, tr.kind = dtr.kind ∧
      st.curr_date * 1440 + min tr.«end».mins_from_midnight 1440 ≤ endPos st') := by
  obtain ⟨d, curr⟩ := st
  cases curr with
  | nil => simp [tdi_next] at hrun
  | cons tr rest =>
    simp only [tdi_next] at hrun
    split_ifs at hrun with hts hte
    · cases hc : tdi_consume E end_dt tr.kind d fuel ⟨d, tr :: rest⟩ with
      | none =>
        rw [hc] at hrun
        simp at hrun
      | some st2 =>
        rw [hc] at hrun
        dsimp only at hrun
        rw [hE.1] at hrun
        obtain ⟨c1, c2, c3, c4⟩ := tdi_consume_spec E hE end_dt tr.kind d fuel
          ⟨d, tr :: rest⟩ st2 hinv hc
        have hbound : d * 1440 + min tr.«end».mins_from_midnight 1440 ≤ endPos st2 := by
          have := c4 tr rfl rfl
          simpa using this
        have htr_wf := hinv.1 tr (List.mem_cons_self tr rest)
        split_ifs at hrun
        simp only [Option.some.injEq, Prod.mk.injEq] at hrun
        obtain ⟨hdtr, hst⟩ := hrun
        subst hdtr
        subst hst
        refine ⟨c1, rfl, ?_, ?_, ?_, ?_⟩
        · show min end_dt _ = min end_dt (endPos st2)
          rw [endPos_endTime st2]
        · show d * 1440 + tr.start.mins_from_midnight < endPos st2
          have hm : tr.start.mins_from_midnight <
              min tr.«end».mins_from_midnight 1440 := by
            rcases htr_wf with ⟨_, hlt1440, hltend⟩
            exact lt_min hltend hlt1440
          omega
        · intro x hx
          exact c2 x hx
        · intro x hx
          simp only [List.head?_cons, Option.mem_def, Option.some.injEq] at hx
          subst hx
          refine ⟨rfl, by simpa using hbound⟩

/-- The raw output stream of the iterator: adjacent outputs meet (up to the
window clamp), starts strictly increase, kinds alternate, and each output is
forward (or clamped at the window end); head and tail positions are tied to
the starting state. -/
theorem tdi_run_spec (E : TDIEnv) (hE : TDIEnvOK E) (end_dt : Int) :
    ∀ (fuel : Nat) (st : TDIState) (outs : List DateTimeRange),
    TDIInv st →
    tdi_run E end_dt fuel st = some outs →
    List.Chain' (fun a b => a.«end» = min end_dt b.start) outs ∧
    List.Chain' (fun (a b : DateTimeRange) => a.start < b.start) outs ∧
    List.Chain' (fun (a b : DateTimeRange) => a.kind ≠ b.kind) outs ∧
    (∀ x ∈ outs, x.start < x.«end» ∨ x.«end» = end_dt) ∧
    (∀ x ∈ outs.head?,
      x.start = endPos st ∧
      (∀ tr ∈ st.curr.head?, x.kind = tr.kind ∧
        min end_dt (st.curr_date * 1440 + min tr.«end».mins_from_midnight 1440) ≤
          x.«end»)) ∧
    (∀ y ∈ outs.tail, ∀ tr ∈ st.curr.head?,
      st.curr_date * 1440 + min tr.«end».mins_from_midnight 1440 ≤ y.start) ∧
    (outs ≠ [] → st.curr ≠ []) := by
  intro fuel
  induction fuel with
  | zero => intro st outs _ h; simp [tdi_run] at h
  | succ n ih =>
    intro st outs hinv hrun
    unfold tdi_run at hrun
    cases hnext : tdi_next E end_dt n st with
    | none => rw [hnext] at hrun; simp at hrun
    | some onext =>
      rw [hnext] at hrun
      cases onext with
      | none =>
        simp only [Option.some.injEq] at hrun
        subst hrun
        refine ⟨List.chain'_nil, List.chain'_nil, List.chain'_nil, ?_, ?_, ?_, ?_⟩
        · intro x hx; simp at hx
        · intro x hx; simp at hx
        · intro y hy; simp at hy
        · intro h; exact absurd rfl h
      | some p =>
        obtain ⟨dtr, st2⟩ := p
        dsimp only at hrun
        cases hrest : tdi_run E end_dt n st2 with
        | none => rw [hrest] at hrun; simp at hrun
        | some rest =>
          rw [hrest] at hrun
          simp only [Option.some.injEq] at hrun
          subst hrun
          obtain ⟨n1, n2, n3, n4, n5, n6⟩ :=
            tdi_next_spec E hE end_dt n st st2 dtr hinv hnext
          obtain ⟨r1, r2, r3, r4, r5, r6, r7⟩ := ih st2 rest n1 hrest
          have hstcur : st.curr ≠ [] := by
            intro hc
            obtain ⟨d, curr⟩ := st
            simp only at hc
            subst hc
            simp [tdi_next] at hnext
          -- the head of `rest` (when present) starts at the new position
          have hresthead : ∀ b ∈ rest.head?, b.start = endPos st2 :=
            fun b hb => (r5 b hb).1
          have hst2curr : rest ≠ [] → st2.curr ≠ [] := r7
          refine ⟨?_, ?_, ?_, ?_, ?_, ?_, fun _ => hstcur⟩
          · rw [List.chain'_cons']
            refine ⟨?_, r1⟩
            intro b hb
            rw [n3, hresthead b hb]
          · rw [List.chain'_cons']
            refine ⟨?_, r2⟩
            intro b hb
            rw [hresthead b hb]
            exact n4
          · rw [List.chain'_cons']
            refine ⟨?_, r3⟩
            intro b hb
            have hbne : rest ≠ [] := by
              intro hc
              rw [hc] at hb
              simp at hb
            obtain ⟨b2, hb2⟩ : ∃ x, st2.curr.head? = some x := by
              cases hcc : st2.curr with
              | nil => exact absurd hcc (hst2curr hbne)
              | cons a t => exact ⟨a, rfl⟩
            have hbk := (r5 b hb).2 b2 (by rw [Option.mem_def, hb2])
            have hdk := n5 b2 (by rw [Option.mem_def, hb2])
            rw [hbk.1]
            exact fun he => hdk he.symm
          · intro x hx
            rcases List.mem_cons.mp hx with rfl | hx2
            · rcases le_or_lt end_dt (endPos st2) with hle | hlt
              · right
                rw [n3]
                exact min_eq_left hle
              · left
                rw [n3, min_eq_right (le_of_lt hlt)]
                exact n4
            · exact r4 x hx2
          · intro x hx
            simp only [List.head?_cons, Option.mem_def, Option.some.injEq] at hx
            subst hx
            refine ⟨n2, ?_⟩
            intro tr htr
            refine ⟨(n6 tr htr).1.symm, ?_⟩
            rw [n3]
            exact min_le_min (le_refl end_dt) (n6 tr htr).2
          · intro y hy tr htr
            simp only [List.tail_cons] at hy
            have hbne : rest ≠ [] := by
              intro hc
              rw [hc] at hy
              simp at hy
            cases hc : rest with
            | nil => exact absurd hc hbne
            | cons b rest2 =>
              rw [hc] at hy
              rcases List.mem_cons.mp hy with rfl | hy2
              · rw [hresthead y (by rw [hc]; simp)]
                exact (n6 tr htr).2
              · -- y is in the tail of `rest`: chain through st2's bound
                have hst2ne : st2.curr ≠ [] := hst2curr hbne
                obtain ⟨b2, hb2⟩ : ∃ x, st2.curr.head? = some x := by
                  cases hcc : st2.curr with
                  | nil => exact absurd hcc hst2ne
                  | cons a t => exact ⟨a, rfl⟩
                have hy3 : y ∈ rest.tail := by rw [hc]; simpa using hy2
                have hbd := r6 y hy3 b2 (by rw [Option.mem_def, hb2])
                have hwf2 := n1.1 b2 (List.mem_of_mem_head? (by rw [Option.mem_def, hb2]))
                have hpos2 : endPos st2 = st2.curr_date * 1440 +
                    b2.start.mins_from_midnight := by
                  simp [endPos, hb2]
                have hstep : endPos st2 <
                    st2.curr_date * 1440 + min b2.«end».mins_from_midnight 1440 := by
                  rw [hpos2]
                  obtain ⟨w1, w2, w3⟩ := hwf2
                  have := lt_min w3 w2
                  omega
                have hb0 := (n6 tr htr).2
                omega

/-- Clamping a min-adjacent stream into the window makes it exactly
adjacent, provided every element starts before the window's end and every
non-first element starts at or after the window's start. -/
theorem clamp_chain_eq (d_from d_to : Int) :
    ∀ (l : List DateTimeRange),
    List.Chain' (fun a b => a.«end» = min d_to b.start) l →
    (∀ x ∈ l, x.start < d_to) →
    (∀ y ∈ l.tail, d_from ≤ y.start) →
    List.Chain' (fun a b => a.«end» = b.start)
      (l.map fun dtr => (⟨max dtr.start d_from, min dtr.«end» d_to, dtr.kind,
        dtr.comments⟩ : DateTimeRange))
  | [], _, _, _ => List.chain'_nil
  | [_], _, _, _ => List.chain'_singleton _
  | a :: b :: t, hch, hlt, htl => by
    rw [List.map_cons, List.map_cons, List.chain'_cons]
    constructor
    · show min a.«end» d_to = max b.start d_from
      have h1 : a.«end» = min d_to b.start := (List.chain'_cons.mp hch).1
      have h2 : b.start < d_to := hlt b (by simp)
      have h3 : d_from ≤ b.start := htl b (by simp)
      rw [h1, min_eq_right (le_of_lt h2), min_eq_left (le_of_lt h2), max_eq_left h3]
    · exact clamp_chain_eq d_from d_to (b :: t) (List.chain'_cons.mp hch).2
        (fun x hx => hlt x (List.mem_cons_of_mem a hx))
        (fun y hy => htl y (by
          simp only [List.tail_cons] at hy ⊢
          exact List.mem_cons_of_mem b hy))

/-- C2 (amended): under the default context (no interval bound) and
well-formed day streams, every successful `iter_range` run yields outputs
with `end ≥ start`, exact adjacency `out[i].end = out[i+1].start`, no two
adjacent outputs of the same kind, and starts that are non-decreasing —
but not necessarily strictly increasing: the first output can be degenerate
(`start = end`), see the counterexample. -/
theorem C2_iter_range_invariants (E : TDIEnv) (hE : TDIEnvOK E)
    (date_from date_to : Int) (fuel : Nat) (outs : List DateTimeRange)
    (hrun : iter_range_naive E date_from date_to fuel = some outs) :
    (∀ x ∈ outs, x.start ≤ x.«end») ∧
    List.Chain' (fun a b => a.«end» = b.start) outs ∧
    List.Chain' (fun (a b : DateTimeRange) => a.kind ≠ b.kind) outs ∧
    List.Chain' (fun (a b : DateTimeRange) => a.start ≤ b.start) outs := by
  simp only [iter_range_naive] at hrun
  set DF := min DATE_END_dt date_from with hDF
  set DT := min DATE_END_dt date_to with hDT
  cases hinit : tdi_init E DF DT with
  | none => rw [hinit] at hrun; simp at hrun
  | some st =>
    rw [hinit] at hrun
    dsimp only at hrun
    cases hraw : tdi_run E DT fuel st with
    | none => rw [hraw] at hrun; simp at hrun
    | some raw =>
      rw [hraw] at hrun
      simp only [Option.some.injEq] at hrun
      subst hrun
      obtain ⟨iInv, iDate, iHead⟩ := tdi_init_spec E hE DF DT st hinit
      obtain ⟨p1, p2, p3, p4, p5, p6, p7⟩ := tdi_run_spec E hE DT fuel st raw iInv hraw
      have hsplit : raw.takeWhile (fun dtr => decide (dtr.start < DT)) ++
          raw.dropWhile (fun dtr => decide (dtr.start < DT)) = raw :=
        List.takeWhile_append_dropWhile _ _
      -- facts about the kept prefix
      have k1 : List.Chain' (fun a b => a.«end» = min DT b.start)
          (raw.takeWhile fun dtr => decide (dtr.start < DT)) := by
        rw [← hsplit] at p1
        exact (List.chain'_append.mp p1).1
      have k2' : List.Chain' (fun (a b : DateTimeRange) => a.start < b.start)
          (raw.takeWhile fun dtr => decide (dtr.start < DT)) := by
        rw [← hsplit] at p2
        exact (List.chain'_append.mp p2).1
      have k3' : List.Chain' (fun (a b : DateTimeRange) => a.kind ≠ b.kind)
          (raw.takeWhile fun dtr => decide (dtr.start < DT)) := by
        rw [← hsplit] at p3
        exact (List.chain'_append.mp p3).1
      have kmem : ∀ x ∈ raw.takeWhile (fun dtr => decide (dtr.start < DT)), x ∈ raw := by
        intro x hx
        rw [← hsplit]
        exact List.mem_append_left _ hx
      have klt : ∀ x ∈ raw.takeWhile (fun dtr => decide (dtr.start < DT)),
          x.start < DT := by
        intro x hx
        have := List.mem_takeWhile_imp hx
        exact of_decide_eq_true this
      have ktail : ∀ y ∈ (raw.takeWhile fun dtr => decide (dtr.start < DT)).tail,
          y ∈ raw.tail := by
        intro y hy
        cases hk : raw.takeWhile (fun dtr => decide (dtr.start < DT)) with
        | nil => rw [hk] at hy; simp at hy
        | cons k0 kt =>
          rw [hk] at hy
          simp only [List.tail_cons] at hy
          have h2 : raw = (k0 :: kt) ++ raw.dropWhile fun dtr => decide (dtr.start < DT) := by
            conv_lhs => rw [← hsplit]
            rw [hk]
          rw [h2, List.cons_append, List.tail_cons]
          exact List.mem_append_left _ hy
      -- the window start is a lower bound for the consumed head's cap
      have hDFbound : ∀ tr ∈ st.curr.head?,
          DF ≤ st.curr_date * 1440 + min tr.«end».mins_from_midnight 1440 := by
        intro tr htr
        obtain ⟨hs1, hs2⟩ := iHead tr htr
        have hed : DF = DF / 1440 * 1440 + DF % 1440 := by omega
        have hmod : DF % 1440 < 1440 := by omega
        have hmin : DF % 1440 ≤ min tr.«end».mins_from_midnight 1440 :=
          le_min hs2 (le_of_lt hmod)
        rw [iDate]
        omega
      have htailDF : ∀ y ∈ raw.tail, DF ≤ y.start := by
        intro y hy
        have hne : raw ≠ [] := by
          intro hc
          rw [hc] at hy
          simp at hy
        obtain ⟨tr0, htr0⟩ : ∃ x, st.curr.head? = some x := by
          cases hcc : st.curr with
          | nil => exact absurd hcc (p7 hne)
          | cons a t => exact ⟨a, rfl⟩
        have := p6 y hy tr0 (by rw [Option.mem_def, htr0])
        have := hDFbound tr0 (by rw [Option.mem_def, htr0])
        omega
      have ktailDF : ∀ y ∈ (raw.takeWhile fun dtr => decide (dtr.start < DT)).tail,
          DF ≤ y.start := fun y hy => htailDF y (ktail y hy)
      refine ⟨?_, ?_, ?_, ?_⟩
      · -- each clamped output is forward
        intro x hx
        simp only [List.mem_map] at hx
        obtain ⟨y, hy, rfl⟩ := hx
        have hylt : y.start < DT := klt y hy
        have hyraw : y ∈ raw := kmem y hy
        have hfwd : y.start ≤ y.«end» := by
          rcases p4 y hyraw with h | h
          · exact le_of_lt h
          · omega
        have hDFDT : DF < DT := by
          by_contra hcon
          rw [not_lt] at hcon
          have hstnil : st.curr = [] := by
            simp only [tdi_init] at hinit
            rw [if_pos hcon] at hinit
            simp only [Option.some.injEq] at hinit
            rw [← hinit]
            simp
          have hrawnil : raw = [] := by
            by_contra hrc
            exact absurd hstnil (p7 hrc)
          rw [hrawnil] at hy
          simp at hy
        have hDFe : DF ≤ y.«end» := by
          cases hk : raw.takeWhile (fun dtr => decide (dtr.start < DT)) with
          | nil => rw [hk] at hy; simp at hy
          | cons k0 kt =>
            rw [hk] at hy
            rcases List.mem_cons.mp hy with rfl | hy2
            · -- y is the first output: its end is capped below by the window start
              have hk0 : ∀ x ∈ raw.head?, x = y := by
                intro x hxh
                rw [← hsplit, hk] at hxh
                simp only [List.cons_append, List.head?_cons, Option.mem_def,
                  Option.some.injEq] at hxh
                exact hxh.symm
              have hne : raw ≠ [] := by
                intro hc
                rw [← hsplit, hk] at hc
                simp at hc
              obtain ⟨tr0, htr0⟩ : ∃ x, st.curr.head? = some x := by
                cases hcc : st.curr with
                | nil => exact absurd hcc (p7 hne)
                | cons a t => exact ⟨a, rfl⟩
              obtain ⟨r0, hr0⟩ : ∃ x, raw.head? = some x := by
                cases hcc : raw with
                | nil => exact absurd hcc hne
                | cons a t => exact ⟨a, rfl⟩
              have hr0y : r0 = y := hk0 r0 (by rw [Option.mem_def, hr0])
              subst hr0y
              have hhead := p5 r0 (by rw [Option.mem_def, hr0])
              have hbd := (hhead.2 tr0 (by rw [Option.mem_def, htr0])).2
              have hDFb := hDFbound tr0 (by rw [Option.mem_def, htr0])
              have : DF ≤ min DT (st.curr_date * 1440 +
                  min tr0.«end».mins_from_midnight 1440) :=
                le_min (le_of_lt hDFDT) hDFb
              omega
            · -- y is a later output: below its own start
              have := ktailDF y (by rw [hk]; simpa using hy2)
              omega
        show max y.start DF ≤ min y.«end» DT
        exact max_le (le_min hfwd (le_of_lt hylt)) (le_min hDFe (le_of_lt hDFDT))
      · exact clamp_chain_eq DF DT _ k1 klt ktailDF
      · rw [List.chain'_map]
        exact k3'.imp fun a b h => h
      · rw [List.chain'_map]
        refine k2'.imp fun a b h => ?_
        show max a.start DF ≤ max b.start DF
        exact max_le_max (le_of_lt h) (le_refl DF)

theorem trivTDIEnv_OK : TDIEnvOK trivTDIEnv := by
  refine ⟨rfl, ?_⟩
  intro d l h
  simp only [trivTDIEnv, Option.some.injEq] at h
  rw [← h]
  refine ⟨?_, List.chain'_singleton _, List.chain'_singleton _⟩
  intro tr htr
  simp only [List.mem_singleton] at htr
  subst htr
  refine ⟨by decide, by decide, by decide⟩

/-- Witness for C2: the constant all-day-open environment satisfies the
hypotheses, and a concrete one-day window run satisfies the amended
conclusions. -/
theorem C2_iter_range_invariants_witness :
    TDIEnvOK trivTDIEnv ∧
      (∀ x ∈ [(⟨700000 * 1440 + 600, 700000 * 1440 + 700, RuleKind.OPEN, []⟩ :
          DateTimeRange)], x.start ≤ x.«end») :=
  ⟨trivTDIEnv_OK,
   (C2_iter_range_invariants trivTDIEnv trivTDIEnv_OK (700000 * 1440 + 600)
      (700000 * 1440 + 700) 10
      [⟨700000 * 1440 + 600, 700000 * 1440 + 700, RuleKind.OPEN, []⟩]
      (by decide)).1⟩

/-- C5 (amended): for every well-formed `Schedule` (normalised, positive
ranges, sorted and pairwise disjoint), iterating it yields a non-empty list
of `TimeRange`s that tile the axis contiguously (hence disjointly) from
`00:00`, each of positive length, with no two adjacent outputs sharing a
kind, whose last output's end reaches at least `24:00` (ranges extending
past `24:00` are NOT truncated, contrary to the original claim — see the
counterexample), and in which every minute of `[00:00, 24:00)` not covered
by any input range lies inside an emitted `CLOSED` range (holes are filled
with `CLOSED`). -/
theorem C5_schedule_iterator (ranges : List TimeRange) (hwf : ScheduleWF ranges) :
    scheduleIterate ranges ≠ [] ∧
    contiguousFrom MIDNIGHT_00 (scheduleIterate ranges) ∧
    (∀ x ∈ scheduleIterate ranges,
      x.start.mins_from_midnight < x.«end».mins_from_midnight) ∧
    alternatingKinds (scheduleIterate ranges) ∧
    1440 ≤ (lastEndD MIDNIGHT_00 (scheduleIterate ranges)).mins_from_midnight ∧
    (∀ t : Int, 0 ≤ t → t < 1440 → ¬coveredBy ranges t →
      ∃ x ∈ scheduleIterate ranges, x.kind = RuleKind.CLOSED ∧
        x.start.mins_from_midnight ≤ t ∧ t < x.«end».mins_from_midnight) := by
  obtain ⟨C, hinv⟩ := scheduleIterate_inv ranges hwf
  obtain ⟨h1, h2, h3, h4, h5, h6⟩ := finalize_props ranges C _ hinv
  refine ⟨h1, h2, h3, h4, h5, ?_⟩
  intro t ht0 ht1 htnc
  obtain ⟨x, hx, hxs, hxe⟩ := contiguousFrom_covers MIDNIGHT_00 _ h2 t
    (by simpa using ht0) (lt_of_lt_of_le ht1 h5)
  by_cases hk : x.kind = RuleKind.CLOSED
  · exact ⟨x, hx, hk, hxs, hxe⟩
  · exact absurd (h6 x hx hk t hxs hxe) htnc

/-- Witness for C5: the one-range schedule `[(10:00, 12:00, OPEN)]` is
well-formed and its iteration is non-empty. -/
theorem C5_schedule_iterator_witness :
    ScheduleWF [⟨⟨10, 0⟩, ⟨12, 0⟩, RuleKind.OPEN, []⟩] ∧
      scheduleIterate [⟨⟨10, 0⟩, ⟨12, 0⟩, RuleKind.OPEN, []⟩] ≠ [] := by
  have hwf : ScheduleWF [⟨⟨10, 0⟩, ⟨12, 0⟩, RuleKind.OPEN, []⟩] := by
    refine ⟨?_, List.chain'_singleton _⟩
    intro r hr
    simp only [List.mem_singleton] at hr
    subst hr
    exact ⟨⟨by decide, by decide, by decide⟩, ⟨by decide, by decide, by decide⟩,
      by decide⟩
  exact ⟨hwf, (C5_schedule_iterator _ hwf).1⟩

/-- C6: the claim asserts `parse(str(parse(s))) == parse(s)` for every
accepted `s`, including fallback (`||`) expressions and quoted comments.
For `s = "24/7 || closed"` the parsed expression prints as
`"24/7 | 24/7 closed"`: `RuleOperator._separator` emits `" | "` for
`FALLBACK`, which is not a separator the grammar accepts (the accepted
fallback separator is `" || "`), so re-parsing the printed form raises
instead of reproducing the original parse.  Comments are likewise printed
without their quotes (`24/7 unknown boo`), also unparseable as a comment. -/
theorem C6_fallback_separator_unparseable :
    OpeningHoursExpression.py_str c6expr = some "24/7 | 24/7 closed" ∧
    RuleOperator._separator RuleOperator.FALLBACK = " | " ∧
    accepted_separators.contains (RuleOperator._separator RuleOperator.FALLBACK)
      = false ∧
    " || " ∈ accepted_separators ∧
    OpeningHoursExpression.py_str c6expr2 = some "24/7 unknown boo" := by
  refine ⟨by decide, rfl, by decide, by decide, by decide⟩

end Osm
